import Mathlib

/-!
Verification of the buffer model of the FDU-SoftwareDesign-25Fall workspace
editor.  The Go sources are shallowly embedded: a Go string addressed by
Unicode code points (runes) becomes a `List Char`, a slice used as a stack
becomes a `List` with its top at the head, and the key set of a Go map
becomes a duplicate-free `List String` manipulated by `addKey` / `delKey`.
Line, column and length arguments (Go `int`) are embedded as `Nat`; a
negative Go argument fails the same `< 1` bound checks as `0`, so no
behaviour is lost.  Fallible operations return the pair of an optional
error and the resulting state, mirroring the Go pattern of mutating a
receiver and returning an `error`: a function that mutates before failing
returns the mutated state next to the error, exactly as the source does.
-/

/-- Strings manipulated by the editors, as sequences of Unicode code
points.  Go indexes by runes (`[]rune`, `utf8.RuneCountInString`), which
this representation matches directly. -/
abbrev Str := List Char

/-- Embedding of Go `strings.ReplaceAll(text, "\r\n", "\n")`: left-to-right
replacement of each CR-LF pair by LF. -/
def normalizeCRLF : Str → Str
  | [] => []
  | [c] => [c]
  | c1 :: c2 :: rest =>
    if c1 = '\r' && c2 = '\n' then '\n' :: normalizeCRLF rest
    else c1 :: normalizeCRLF (c2 :: rest)

/-- Embedding of Go `strings.Split(s, "\n")`: the chunks between LF
characters.  The empty string yields one empty chunk, as in Go. -/
def splitOnLF : Str → List Str
  | [] => [[]]
  | c :: rest =>
    if c = '\n' then [] :: splitOnLF rest
    else (c :: (splitOnLF rest).headD []) :: (splitOnLF rest).tail

/-- Embedding of Go `strings.Join(lines, "\n")`. -/
def joinLF : List Str → Str
  | [] => []
  | [l] => l
  | l :: rest => l ++ '\n' :: joinLF rest

/-- Embedding of Go `strings.TrimSpace`: surrounding whitespace removed
(the Go version trims all Unicode space; the editors only ever confront
ASCII whitespace, matched by `Char.isWhitespace`). -/
def trimSpace (s : Str) : Str :=
  ((s.dropWhile Char.isWhitespace).reverse.dropWhile Char.isWhitespace).reverse

/-- Key set of a Go map after `m[k] = v`: insertion keeps the set
duplicate-free. -/
def addKey (l : List String) (k : String) : List String :=
  if k ∈ l then l else k :: l

/-- Key set of a Go map after `delete(m, k)`. -/
def delKey (l : List String) (k : String) : List String :=
  l.filter (fun s => s ≠ k)

/-- Iterated `delKey`, as performed by the recursive `removeFromIndex`. -/
def delKeys (l : List String) (ks : List String) : List String :=
  ks.foldl delKey l

theorem mem_addKey {l : List String} {k s : String} :
    s ∈ addKey l k ↔ s = k ∨ s ∈ l := by
  unfold addKey
  split <;> rename_i h
  · constructor
    · exact fun hs => Or.inr hs
    · rintro (rfl | hs) <;> [exact h; exact hs]
  · exact List.mem_cons

theorem mem_delKey {l : List String} {k s : String} :
    s ∈ delKey l k ↔ s ∈ l ∧ s ≠ k := by
  unfold delKey
  simp [List.mem_filter]

theorem mem_delKeys {l : List String} {ks : List String} {s : String} :
    s ∈ delKeys l ks ↔ s ∈ l ∧ s ∉ ks := by
  induction ks generalizing l with
  | nil => simp [delKeys]
  | cons k ks ih =>
    simp only [delKeys, List.foldl_cons] at *
    rw [ih, mem_delKey]
    constructor
    · rintro ⟨⟨hl, hne⟩, hks⟩
      exact ⟨hl, by simp [hne, hks]⟩
    · rintro ⟨hl, hmem⟩
      simp only [List.mem_cons, not_or] at hmem
      exact ⟨⟨hl, hmem.1⟩, hmem.2⟩

/-! ## Text buffer (`TextEditor`, src/unnamed/part_003)

The Go `TextEditor` stores `lines []string`, a `modified` flag and two
stacks of `editCommand` records holding full before/after snapshots of
`lines`.  Stacks are embedded with the top at the head of the list. -/

/-- Edit record pushed by `TextEditor.execute`: a descriptive label plus
full pre- and post-state snapshots of `lines`. -/
structure EditCommand where
  description : String
  before : List Str
  after : List Str
deriving DecidableEq

/-- The text editor state (Go struct `TextEditor`). -/
structure TextEditor where
  path : String
  lines : List Str
  modified : Bool
  undoStack : List EditCommand
  redoStack : List EditCommand
deriving DecidableEq

/-- Constructor `NewTextEditor` (the Go version clones the line slice;
pure values need no clone). -/
def NewTextEditor (path : String) (lines : List Str) (modified : Bool) : TextEditor :=
  { path := path, lines := lines, modified := modified, undoStack := [], redoStack := [] }

/-- Serialization `TextEditor.Content`: lines joined by a single LF. -/
def TextEditor.Content (e : TextEditor) : Str :=
  joinLF e.lines

/-- Failure kinds of the text editor, one per distinct error produced in
the source (all surfaced as the spec's EditRange family plus the
history-empty errors of Undo/Redo). -/
inductive TextErr where
  | emptyBufferPos
  | lineOutOfRange
  | colOutOfRange
  | deleteLenZero
  | deleteBeyondEOL
  | historyEmpty
deriving DecidableEq

/-- Helper `splitWithKeep`: CR-LF is normalized to LF, then the text is
split on LF; the empty text yields one empty fragment. -/
def splitWithKeep (text : Str) : List Str :=
  if text = [] then [[]] else splitOnLF (normalizeCRLF text)

/-- Position validation `ensureLinePosition`.  Returns `none` when the
1-based `(line, col)` position is admissible; `allowEOF` permits
`col = lineLength + 1` and the empty-buffer `1:1` exception. -/
def ensureLinePosition (lines : List Str) (line col : Nat) (allowEOF : Bool) :
    Option TextErr :=
  if lines = [] then
    if allowEOF ∧ line = 1 ∧ col = 1 then none else some .emptyBufferPos
  else if line < 1 ∨ line > lines.length then some .lineOutOfRange
  else if col < 1 ∨ col > (lines.getD (line - 1) []).length + cond allowEOF 1 0 then
    some .colOutOfRange
  else none

/-- Helper `splitLineAtColumn`: the line cut after `col - 1` code points. -/
def splitLineAtColumn (l : Str) (col : Nat) : Except TextErr (Str × Str) :=
  if col < 1 ∨ col > l.length + 1 then .error .colOutOfRange
  else .ok (l.take (col - 1), l.drop (col - 1))

/-- Body of `insertSpan` after position validation and materialization of
the empty buffer: the target line is split at the column, the text is
split into fragments by `splitWithKeep`, and a single fragment is spliced
into the line while several fragments replace it by first line, middle
lines and last line. -/
def insertSpanCore (lines1 : List Str) (line col : Nat) (text : Str) :
    Option TextErr × List Str :=
  match splitLineAtColumn (lines1.getD (line - 1) []) col with
  | .error e => (some e, lines1)
  | .ok (left, right) =>
    if (splitWithKeep text).length = 1 then
      (none, lines1.set (line - 1) (left ++ (splitWithKeep text).headD [] ++ right))
    else
      (none,
        lines1.take (line - 1)
          ++ [left ++ (splitWithKeep text).headD []]
          ++ ((splitWithKeep text).drop 1).dropLast
          ++ [(splitWithKeep text).getLastD [] ++ right]
          ++ lines1.drop (line - 1 + 1))

/-- Mutation body of `Insert` (`insertSpan`).  On error the returned line
list is whatever the source had mutated so far (the empty buffer is
materialized as one empty line before the column split). -/
def insertSpan (lines : List Str) (line col : Nat) (text : Str) :
    Option TextErr × List Str :=
  match ensureLinePosition lines line col true with
  | some e => (some e, lines)
  | none => insertSpanCore (if lines = [] then [([] : Str)] else lines) line col text

/-- Mutation body of `Delete` (`deleteSpan`): removes `length` code points
from the addressed line, never crossing a line boundary. -/
def deleteSpan (lines : List Str) (line col length : Nat) :
    Option TextErr × List Str :=
  match ensureLinePosition lines line col false with
  | some e => (some e, lines)
  | none =>
    if length < 1 then (some .deleteLenZero, lines)
    else if col - 1 + length > (lines.getD (line - 1) []).length then
      (some .deleteBeyondEOL, lines)
    else
      (none, lines.set (line - 1)
        ((lines.getD (line - 1) []).take (col - 1)
          ++ (lines.getD (line - 1) []).drop (col - 1 + length)))

/-- The four mutating text commands routed through `execute`. -/
inductive TextOp where
  | append (text : Str)
  | insert (line col : Nat) (text : Str)
  | delete (line col length : Nat)
  | replace (line col length : Nat) (text : Str)
deriving DecidableEq

/-- Label recorded by each operation (first argument of `execute`). -/
def TextOp.description : TextOp → String
  | .append _ => "append"
  | .insert _ _ _ => "insert"
  | .delete _ _ _ => "delete"
  | .replace _ _ _ _ => "replace"

/-- Mutation closure passed to `execute` by each operation.  `Replace`
runs `deleteSpan` and, on its success, `insertSpan` on the already-deleted
lines, exactly as the source does. -/
def TextOp.mutate : TextOp → List Str → Option TextErr × List Str
  | .append text => fun ls => (none, ls ++ splitWithKeep text)
  | .insert line col text => fun ls => insertSpan ls line col text
  | .delete line col length => fun ls => deleteSpan ls line col length
  | .replace line col length text => fun ls =>
    match deleteSpan ls line col length with
    | (some e, ls1) => (some e, ls1)
    | (none, ls1) => insertSpan ls1 line col text

/-- Command wrapper `TextEditor.execute`: snapshot, mutate, and on success
push the record, clear the redo stack and set `modified`.  On failure the
(possibly mutated) lines are kept, as in the source, which restores
nothing. -/
def TextEditor.execute (e : TextEditor) (desc : String)
    (mutate : List Str → Option TextErr × List Str) : Option TextErr × TextEditor :=
  let before := e.lines
  match mutate e.lines with
  | (some err, ls) => (some err, { e with lines := ls })
  | (none, ls) =>
    (none,
      { e with
        lines := ls
        undoStack := ⟨desc, before, ls⟩ :: e.undoStack
        redoStack := []
        modified := true })

/-- Dispatch of the four mutating operations. -/
def applyTextOp (e : TextEditor) (op : TextOp) : Option TextErr × TextEditor :=
  e.execute op.description op.mutate

/-- Undo: pop the top record, restore its pre-state snapshot, push the
record onto the redo stack, set `modified`. -/
def TextEditor.Undo (e : TextEditor) : Option TextErr × TextEditor :=
  match e.undoStack with
  | [] => (some .historyEmpty, e)
  | cmd :: rest =>
    (none,
      { e with
        lines := cmd.before
        undoStack := rest
        redoStack := cmd :: e.redoStack
        modified := true })

/-- Redo: pop the top record, restore its post-state snapshot, push the
record onto the undo stack, set `modified`. -/
def TextEditor.Redo (e : TextEditor) : Option TextErr × TextEditor :=
  match e.redoStack with
  | [] => (some .historyEmpty, e)
  | cmd :: rest =>
    (none,
      { e with
        lines := cmd.after
        redoStack := rest
        undoStack := cmd :: e.undoStack
        modified := true })

/-- Workspace helper `splitLines` (src/src/workspace/workspace.go): file
content split into buffer lines, dropping one trailing empty line. -/
def splitLines (data : Str) : List Str :=
  if data = [] then []
  else
    let lines := splitOnLF (normalizeCRLF data)
    if lines.getLast? = some [] then lines.dropLast else lines


/-! ## Lemmas about the string primitives -/

theorem splitOnLF_ne_nil (s : Str) : splitOnLF s ≠ [] := by
  cases s with
  | nil => simp [splitOnLF]
  | cons c rest => rw [splitOnLF]; split <;> simp

theorem splitOnLF_cons_of_ne {c : Char} (rest : Str) (hc : c ≠ '\n') {h1 : Str}
    {t1 : List Str} (h : splitOnLF rest = h1 :: t1) :
    splitOnLF (c :: rest) = (c :: h1) :: t1 := by
  rw [splitOnLF, if_neg hc, h]
  rfl

theorem joinLF_splitOnLF (s : Str) : joinLF (splitOnLF s) = s := by
  induction s with
  | nil => simp [splitOnLF, joinLF]
  | cons c rest ih =>
    rcases h : splitOnLF rest with _ | ⟨h1, t1⟩
    · exact absurd h (splitOnLF_ne_nil rest)
    · rw [h] at ih
      by_cases hc : c = '\n'
      · subst hc
        rw [splitOnLF, if_pos rfl, h]
        cases t1 <;> simp_all [joinLF]
      · rw [splitOnLF_cons_of_ne rest hc h]
        cases t1 <;> simp_all [joinLF]

theorem splitOnLF_append_lf (s : Str) :
    splitOnLF (s ++ ['\n']) = splitOnLF s ++ [[]] := by
  induction s with
  | nil => simp [splitOnLF]
  | cons c rest ih =>
    rcases h : splitOnLF rest with _ | ⟨h1, t1⟩
    · exact absurd h (splitOnLF_ne_nil rest)
    · rw [h] at ih
      by_cases hc : c = '\n'
      · subst hc
        rw [List.cons_append, splitOnLF, if_pos rfl, ih,
          splitOnLF, if_pos rfl, h]
        rfl
      · rw [List.cons_append, splitOnLF, if_neg hc, ih,
          splitOnLF_cons_of_ne rest hc h]
        rfl

theorem splitOnLF_getLast_of_ne (s : Str) (hne : s ≠ [])
    (hlast : s.getLast? ≠ some '\n') :
    (splitOnLF s).getLast? ≠ some [] := by
  induction s with
  | nil => exact absurd rfl hne
  | cons c rest ih =>
    cases rest with
    | nil =>
      have hc : c ≠ '\n' := by
        intro hcc; exact hlast (by simp [hcc])
      rw [splitOnLF_cons_of_ne [] hc rfl]
      simp
    | cons d rest2 =>
      have hlast2 : (d :: rest2).getLast? ≠ some '\n' := by
        rwa [List.getLast?_cons_cons] at hlast
      have ih2 := ih (by simp) hlast2
      rcases h : splitOnLF (d :: rest2) with _ | ⟨h1, t1⟩
      · exact absurd h (splitOnLF_ne_nil _)
      · rw [h] at ih2
        by_cases hc : c = '\n'
        · subst hc
          rw [splitOnLF, if_pos rfl, h]
          cases t1 with
          | nil => simpa using ih2
          | cons x xs => simpa [List.getLast?_cons_cons] using ih2
        · rw [splitOnLF_cons_of_ne _ hc h]
          cases t1 with
          | nil => simp
          | cons x xs => simpa [List.getLast?_cons_cons] using ih2

theorem normalizeCRLF_eq_nil_iff (s : Str) : normalizeCRLF s = [] ↔ s = [] := by
  match s with
  | [] => simp [normalizeCRLF]
  | [c] => simp [normalizeCRLF]
  | c1 :: c2 :: rest =>
    rw [normalizeCRLF]
    split <;> simp

theorem normalizeCRLF_of_no_lf {s : Str} (h : '\n' ∉ s) : normalizeCRLF s = s := by
  match s with
  | [] => rfl
  | [c] => rfl
  | c1 :: c2 :: rest =>
    have h2 : '\n' ∉ c2 :: rest := fun hm => h (List.mem_cons_of_mem _ hm)
    have hc2 : c2 ≠ '\n' := fun hc => h2 (hc ▸ List.mem_cons_self _ _)
    rw [normalizeCRLF, if_neg (by simp [hc2]), normalizeCRLF_of_no_lf h2]

theorem splitOnLF_of_no_lf {s : Str} (h : '\n' ∉ s) : splitOnLF s = [s] := by
  induction s with
  | nil => rfl
  | cons c rest ih =>
    have hc : c ≠ '\n' := fun hc => h (hc ▸ List.mem_cons_self _ _)
    exact splitOnLF_cons_of_ne rest hc (ih fun hm => h (List.mem_cons_of_mem _ hm))

theorem splitWithKeep_eq (text : Str) :
    splitWithKeep text = splitOnLF (normalizeCRLF text) := by
  unfold splitWithKeep
  split <;> rename_i h
  · subst h; rfl
  · rfl

theorem splitWithKeep_ne_nil (text : Str) : splitWithKeep text ≠ [] := by
  rw [splitWithKeep_eq]; exact splitOnLF_ne_nil _

/-- Replacement in a list as a take / drop splice, used to relate the
destructive line update of the source to the specification wording. -/
theorem list_set_eq_splice {α : Type} (l : List α) (i : Nat) (a : α)
    (h : i < l.length) :
    l.set i a = l.take i ++ [a] ++ l.drop (i + 1) := by
  induction l generalizing i with
  | nil => simp at h
  | cons x xs ih =>
    cases i with
    | zero => simp
    | succ n =>
      simp only [List.set_cons_succ, List.take_succ_cons, List.drop_succ_cons,
        List.cons_append]
      rw [ih n (by simpa using h)]

theorem list_set_getD_self {α : Type} (l : List α) (i : Nat) (d : α) :
    l.set i (l.getD i d) = l := by
  induction l generalizing i with
  | nil => rfl
  | cons x xs ih =>
    cases i with
    | zero => rfl
    | succ n =>
      show x :: xs.set n ((x :: xs).getD (n + 1) d) = x :: xs
      rw [List.getD_cons_succ, ih n]

theorem list_getD_set_eq {α : Type} (l : List α) (i : Nat) (a d : α)
    (h : i < l.length) : (l.set i a).getD i d = a := by
  induction l generalizing i with
  | nil => simp at h
  | cons x xs ih =>
    cases i with
    | zero => rfl
    | succ n =>
      show (x :: xs.set n a).getD (n + 1) d = a
      rw [List.getD_cons_succ]
      exact ih n (by simpa using h)

/-! ## Characterizations of the text editor mutation bodies -/

theorem ensureLinePosition_true_none {lines : List Str} {l c : Nat}
    (h : ensureLinePosition lines l c true = none) :
    (lines = [] ∧ l = 1 ∧ c = 1) ∨
      (lines ≠ [] ∧ 1 ≤ l ∧ l ≤ lines.length ∧ 1 ≤ c ∧
        c ≤ (lines.getD (l - 1) []).length + 1) := by
  unfold ensureLinePosition at h
  split at h
  · rename_i hnil
    split at h
    · rename_i hp
      exact Or.inl ⟨hnil, hp.2.1, hp.2.2⟩
    · exact absurd h (by simp)
  · rename_i hnil
    split at h
    · exact absurd h (by simp)
    · rename_i hrange
      split at h
      · exact absurd h (by simp)
      · rename_i hcol
        push_neg at hrange hcol
        refine Or.inr ⟨hnil, by omega, hrange.2, by omega, ?_⟩
        have := hcol.2
        simpa using this

theorem ensureLinePosition_false_none {lines : List Str} {l c : Nat}
    (h : ensureLinePosition lines l c false = none) :
    lines ≠ [] ∧ 1 ≤ l ∧ l ≤ lines.length ∧ 1 ≤ c ∧
      c ≤ (lines.getD (l - 1) []).length := by
  unfold ensureLinePosition at h
  split at h
  · split at h
    · rename_i hp
      simp at hp
    · exact absurd h (by simp)
  · rename_i hnil
    split at h
    · exact absurd h (by simp)
    · rename_i hrange
      split at h
      · exact absurd h (by simp)
      · rename_i hcol
        push_neg at hrange hcol
        refine ⟨hnil, by omega, hrange.2, by omega, ?_⟩
        have := hcol.2
        simpa using this

theorem ensureLinePosition_true_of_bounds {lines : List Str} {l c : Nat}
    (hnil : lines ≠ []) (h1 : 1 ≤ l) (h2 : l ≤ lines.length) (h3 : 1 ≤ c)
    (h4 : c ≤ (lines.getD (l - 1) []).length + 1) :
    ensureLinePosition lines l c true = none := by
  unfold ensureLinePosition
  rw [if_neg hnil, if_neg (by omega)]
  rw [if_neg ?hc]
  case hc =>
    push_neg
    exact ⟨by omega, by simpa using h4⟩

theorem splitLineAtColumn_ok {s : Str} {c : Nat} (h1 : 1 ≤ c)
    (h2 : c ≤ s.length + 1) :
    splitLineAtColumn s c = .ok (s.take (c - 1), s.drop (c - 1)) := by
  unfold splitLineAtColumn
  rw [if_neg (by omega)]

/-- Result of a successful insert, written the way the specification
describes it: the target line is split after `col - 1` code points, the
first fragment is appended to the left half, the last fragment is
prepended to the right half, and middle fragments become free-standing
lines in between.  Modelled from the spec wording so that the behaviour
of `insertSpan` can be compared against it. -/
def claimedInsert (lines : List Str) (line col : Nat) (frags : List Str) : List Str :=
  let lines1 := if lines = [] then [([] : Str)] else lines
  let lineIdx := line - 1
  let target := lines1.getD lineIdx []
  let left := target.take (col - 1)
  let right := target.drop (col - 1)
  if frags.length = 1 then
    lines1.take lineIdx ++ [left ++ frags.headD [] ++ right] ++ lines1.drop (lineIdx + 1)
  else
    lines1.take lineIdx ++ [left ++ frags.headD []] ++ (frags.drop 1).dropLast
      ++ [frags.getLastD [] ++ right] ++ lines1.drop (lineIdx + 1)

theorem insertSpanCore_ok {lines1 : List Str} {l c : Nat} (text : Str)
    (h1 : 1 ≤ c) (h2 : c ≤ (lines1.getD (l - 1) []).length + 1)
    (hlt : l - 1 < lines1.length) :
    insertSpanCore lines1 l c text =
      (none,
        lines1.take (l - 1)
          ++ (if (splitWithKeep text).length = 1 then
                [(lines1.getD (l - 1) []).take (c - 1) ++ (splitWithKeep text).headD []
                  ++ (lines1.getD (l - 1) []).drop (c - 1)]
              else
                [(lines1.getD (l - 1) []).take (c - 1) ++ (splitWithKeep text).headD []]
                  ++ ((splitWithKeep text).drop 1).dropLast
                  ++ [(splitWithKeep text).getLastD []
                      ++ (lines1.getD (l - 1) []).drop (c - 1)])
          ++ lines1.drop (l - 1 + 1)) := by
  unfold insertSpanCore
  rw [splitLineAtColumn_ok h1 h2]
  split
  · rename_i e heq
    exact absurd heq (by simp)
  · rename_i left right heq
    injection heq with hpair
    injection hpair with hl hr
    subst hl
    subst hr
    by_cases hlen : (splitWithKeep text).length = 1
    · rw [if_pos hlen, if_pos hlen, list_set_eq_splice _ _ _ hlt]
    · rw [if_neg hlen, if_neg hlen]
      simp [List.append_assoc]

theorem insertSpan_ens {lines : List Str} {l c : Nat} {text : Str} {res : List Str}
    (h : insertSpan lines l c text = (none, res)) :
    ensureLinePosition lines l c true = none := by
  unfold insertSpan at h
  split at h
  · exact absurd h (by simp)
  · assumption

theorem insertSpan_bounds_of_ens {lines : List Str} {l c : Nat}
    (hens : ensureLinePosition lines l c true = none) :
    1 ≤ c ∧
      c ≤ ((if lines = [] then [([] : Str)] else lines).getD (l - 1) []).length + 1 ∧
      l - 1 < (if lines = [] then [([] : Str)] else lines).length := by
  rcases ensureLinePosition_true_none hens with ⟨hnil, hl, hc⟩ | ⟨hnil, h1, h2, h3, h4⟩
  · subst hnil
    subst hl
    subst hc
    simp
  · rw [if_neg hnil]
    exact ⟨h3, h4, by omega⟩

theorem insertSpan_eq_core {lines : List Str} {l c : Nat} {text : Str}
    (hens : ensureLinePosition lines l c true = none) :
    insertSpan lines l c text
      = insertSpanCore (if lines = [] then [([] : Str)] else lines) l c text := by
  unfold insertSpan
  rw [hens]

theorem insertSpan_ok_eq {lines : List Str} {l c : Nat} {text : Str} {res : List Str}
    (h : insertSpan lines l c text = (none, res)) :
    res = claimedInsert lines l c (splitWithKeep text) := by
  have hens := insertSpan_ens h
  obtain ⟨h1, h2, hlt⟩ := insertSpan_bounds_of_ens hens
  rw [insertSpan_eq_core hens, insertSpanCore_ok text h1 h2 hlt] at h
  simp only [Prod.mk.injEq, true_and] at h
  rw [← h]
  by_cases hlen : (splitWithKeep text).length = 1
  · simp [claimedInsert, hlen, List.append_assoc]
  · simp [claimedInsert, hlen, List.append_assoc]

theorem insertSpan_ok_of_ens {lines : List Str} {l c : Nat} (text : Str)
    (hens : ensureLinePosition lines l c true = none) :
    (insertSpan lines l c text).1 = none := by
  obtain ⟨h1, h2, hlt⟩ := insertSpan_bounds_of_ens hens
  rw [insertSpan_eq_core hens, insertSpanCore_ok text h1 h2 hlt]

theorem insertSpan_fail_unchanged {lines : List Str} {l c : Nat} {text : Str}
    {err : TextErr} {res : List Str}
    (h : insertSpan lines l c text = (some err, res)) : res = lines := by
  unfold insertSpan at h
  split at h
  · exact (congrArg Prod.snd h : lines = res).symm
  · rename_i hens
    obtain ⟨h1, h2, hlt⟩ := insertSpan_bounds_of_ens hens
    rw [insertSpanCore_ok text h1 h2 hlt] at h
    exact absurd h (by simp)

theorem deleteSpan_ok {lines : List Str} {l c n : Nat} {res : List Str}
    (h : deleteSpan lines l c n = (none, res)) :
    lines ≠ [] ∧ 1 ≤ l ∧ l ≤ lines.length ∧ 1 ≤ c ∧
      c ≤ (lines.getD (l - 1) []).length ∧ 1 ≤ n ∧
      c - 1 + n ≤ (lines.getD (l - 1) []).length ∧
      res = lines.set (l - 1)
        ((lines.getD (l - 1) []).take (c - 1)
          ++ (lines.getD (l - 1) []).drop (c - 1 + n)) := by
  unfold deleteSpan at h
  split at h
  · exact absurd h (by simp)
  · rename_i hens
    obtain ⟨hnil, h1, h2, h3, h4⟩ := ensureLinePosition_false_none hens
    split at h
    · exact absurd h (by simp)
    · rename_i hn
      split at h
      · exact absurd h (by simp)
      · rename_i hover
        push_neg at hn hover
        exact ⟨hnil, h1, h2, h3, h4, hn, hover,
          (congrArg Prod.snd h :
            lines.set (l - 1) ((lines.getD (l - 1) []).take (c - 1)
              ++ (lines.getD (l - 1) []).drop (c - 1 + n)) = res).symm⟩

theorem deleteSpan_fail_unchanged {lines : List Str} {l c n : Nat}
    {err : TextErr} {res : List Str}
    (h : deleteSpan lines l c n = (some err, res)) : res = lines := by
  unfold deleteSpan at h
  split at h
  · exact (congrArg Prod.snd h : lines = res).symm
  · split at h
    · exact (congrArg Prod.snd h : lines = res).symm
    · split at h
      · exact (congrArg Prod.snd h : lines = res).symm
      · exact absurd h (by simp)

theorem insertSpan_after_deleteSpan {lines : List Str} {l c n : Nat}
    {ls1 : List Str} (text : Str)
    (h : deleteSpan lines l c n = (none, ls1)) :
    (insertSpan ls1 l c text).1 = none := by
  obtain ⟨hnil, h1, h2, h3, h4, h5, h6, hres⟩ := deleteSpan_ok h
  have hlt : l - 1 < lines.length := by omega
  have hlen1 : ls1.length = lines.length := by rw [hres, List.length_set]
  have hnil1 : ls1 ≠ [] := by
    intro hcon
    rw [hcon] at hlen1
    exact hnil (List.length_eq_zero.mp hlen1.symm)
  have hget : ls1.getD (l - 1) [] =
      (lines.getD (l - 1) []).take (c - 1) ++ (lines.getD (l - 1) []).drop (c - 1 + n) := by
    rw [hres]
    exact list_getD_set_eq _ _ _ _ hlt
  have hglen : (ls1.getD (l - 1) []).length = (lines.getD (l - 1) []).length - n := by
    rw [hget]
    simp only [List.length_append, List.length_take, List.length_drop]
    omega
  exact insertSpan_ok_of_ens text
    (ensureLinePosition_true_of_bounds hnil1 h1 (by omega) h3 (by omega))

theorem textMutate_fail_unchanged {op : TextOp} {lines ls : List Str} {err : TextErr}
    (h : op.mutate lines = (some err, ls)) : ls = lines := by
  cases op with
  | append text => exact absurd h (by simp [TextOp.mutate])
  | insert l c text => exact insertSpan_fail_unchanged h
  | delete l c n => exact deleteSpan_fail_unchanged h
  | replace l c n text =>
    simp only [TextOp.mutate] at h
    rcases hd : deleteSpan lines l c n with ⟨derr, ls1⟩
    rw [hd] at h
    cases derr with
    | some e2 =>
      have h3 : ls1 = ls := congrArg Prod.snd h
      rw [← h3]
      exact deleteSpan_fail_unchanged hd
    | none =>
      have h2 : insertSpan ls1 l c text = (some err, ls) := h
      have h3 := insertSpan_after_deleteSpan text hd
      rw [h2] at h3
      exact absurd h3 (by simp)

theorem applyTextOp_fail {e : TextEditor} {op : TextOp} {err : TextErr}
    {e2 : TextEditor} (h : applyTextOp e op = (some err, e2)) : e2 = e := by
  unfold applyTextOp TextEditor.execute at h
  rcases hm : op.mutate e.lines with ⟨merr, ls⟩
  rw [hm] at h
  cases merr with
  | some err2 =>
    have h3 : ({ e with lines := ls } : TextEditor) = e2 := congrArg Prod.snd h
    rw [← h3, textMutate_fail_unchanged hm]
  | none => exact absurd h (by simp)

theorem applyTextOp_ok {e : TextEditor} {op : TextOp} {e2 : TextEditor}
    (h : applyTextOp e op = (none, e2)) :
    (op.mutate e.lines).1 = none ∧
      e2 = { e with
              lines := (op.mutate e.lines).2
              undoStack := ⟨op.description, e.lines, (op.mutate e.lines).2⟩ :: e.undoStack
              redoStack := []
              modified := true } := by
  unfold applyTextOp TextEditor.execute at h
  rcases hm : op.mutate e.lines with ⟨merr, ls⟩
  rw [hm] at h
  cases merr with
  | some err2 => exact absurd h (by simp)
  | none =>
    have h3 : ({ e with
        lines := ls
        undoStack := ⟨op.description, e.lines, ls⟩ :: e.undoStack
        redoStack := []
        modified := true } : TextEditor) = e2 := congrArg Prod.snd h
    subst h3
    exact ⟨rfl, rfl⟩

/-! ## Claim C5: multi-line insert semantics -/

/-- Claim C5 as frozen predicts the fragments of a successful insert by
splitting the raw text on LF.  The code first normalizes CR-LF to LF, so
a text containing a CR-LF pair refutes the claim as stated: on buffer
`["abc"]`, `Insert(1, 2, "x\r\ny")` yields `["ax", "ybc"]`, while
splitting on bare LF would keep the CR and predict `["ax\r", "ybc"]`. -/
theorem claim5_counterexample :
    insertSpan ["abc".toList] 1 2 "x\r\ny".toList
        = (none, ["ax".toList, "ybc".toList]) ∧
    claimedInsert ["abc".toList] 1 2 (splitOnLF "x\r\ny".toList)
        = ["ax\r".toList, "ybc".toList] ∧
    ["ax".toList, "ybc".toList] ≠ ["ax\r".toList, "ybc".toList] :=
  ⟨by decide, by decide, by decide⟩

/-- Claim C5, amended: for every successful `Insert(line, col, text)` the
result is the line list predicted by the specification wording — the
target line split after `col - 1` code points, the text split on LF
after CR-LF normalization, first fragment appended to the left half,
last fragment prepended to the right half, middle fragments free-standing
in between — and in particular `Insert(1, 2, "x\ny")` on `["abc"]` yields
`["ax", "ybc"]`. -/
theorem claim5_insert_splice (lines : List Str) (line col : Nat) (text : Str)
    (res : List Str) (h : insertSpan lines line col text = (none, res)) :
    res = claimedInsert lines line col (splitOnLF (normalizeCRLF text)) ∧
    (insertSpan ["abc".toList] 1 2 "x\ny".toList).2
        = ["ax".toList, "ybc".toList] := by
  refine ⟨?_, by decide⟩
  rw [← splitWithKeep_eq]
  exact insertSpan_ok_eq h

/-- Witness for C5 at a concrete successful insert. -/
theorem claim5_witness :
    ["ax".toList, "ybc".toList]
        = claimedInsert ["abc".toList] 1 2 (splitOnLF (normalizeCRLF "x\ny".toList)) ∧
    (insertSpan ["abc".toList] 1 2 "x\ny".toList).2
        = ["ax".toList, "ybc".toList] :=
  claim5_insert_splice ["abc".toList] 1 2 "x\ny".toList
    ["ax".toList, "ybc".toList] (by decide)

theorem splitWithKeep_no_lf {s : Str} (hs : '\n' ∉ s) : splitWithKeep s = [s] := by
  unfold splitWithKeep
  split
  · rename_i h
    rw [h]
  · rw [normalizeCRLF_of_no_lf hs, splitOnLF_of_no_lf hs]

theorem insertSpanCore_single {lines1 : List Str} {l c : Nat} {s : Str}
    (hsw : splitWithKeep s = [s]) (h1 : 1 ≤ c)
    (h2 : c ≤ (lines1.getD (l - 1) []).length + 1) :
    insertSpanCore lines1 l c s =
      (none, lines1.set (l - 1)
        ((lines1.getD (l - 1) []).take (c - 1) ++ s
          ++ (lines1.getD (l - 1) []).drop (c - 1))) := by
  unfold insertSpanCore
  rw [splitLineAtColumn_ok h1 h2, hsw]
  rfl

theorem roundtrip_lines {lines : List Str} {l c : Nat} {s : Str} {mid : List Str}
    (hnil : lines ≠ []) (hs : '\n' ∉ s)
    (h : insertSpan lines l c s = (none, mid)) :
    (deleteSpan mid l c s.length).2 = lines := by
  have hens := insertSpan_ens h
  rcases ensureLinePosition_true_none hens with ⟨hn, -, -⟩ | ⟨-, h1, h2, h3, h4⟩
  · exact absurd hn hnil
  have hlt : l - 1 < lines.length := by omega
  have hsw := splitWithKeep_no_lf hs
  rw [insertSpan_eq_core hens, if_neg hnil, insertSpanCore_single hsw h3 h4] at h
  have hmid : mid = lines.set (l - 1) ((lines.getD (l - 1) []).take (c - 1) ++ s
      ++ (lines.getD (l - 1) []).drop (c - 1)) := (congrArg Prod.snd h).symm
  by_cases hscase : s = []
  · subst hscase
    have hmid2 : mid = lines := by
      rw [hmid, List.append_nil, List.take_append_drop, list_set_getD_self]
    rcases hd : deleteSpan mid l c (List.length []) with ⟨derr, r⟩
    cases derr with
    | none =>
      obtain ⟨-, -, -, -, -, hn1, -, -⟩ := deleteSpan_ok hd
      simp at hn1
    | some e2 =>
      have hr : r = mid := deleteSpan_fail_unchanged hd
      show r = lines
      rw [hr, hmid2]
  · have hslen : 1 ≤ s.length := by
      cases s with
      | nil => exact absurd rfl hscase
      | cons a b => simp
    have hlablen : ((lines.getD (l - 1) []).take (c - 1)).length = c - 1 := by
      rw [List.length_take]
      omega
    have hmidget : mid.getD (l - 1) [] =
        (lines.getD (l - 1) []).take (c - 1) ++ s ++ (lines.getD (l - 1) []).drop (c - 1) := by
      rw [hmid]
      exact list_getD_set_eq _ _ _ _ hlt
    have hmidlen : mid.length = lines.length := by
      rw [hmid, List.length_set]
    have hmidnil : mid ≠ [] := by
      intro hcon
      rw [hcon] at hmidlen
      exact hnil (List.length_eq_zero.mp hmidlen.symm)
    have hmglen : (mid.getD (l - 1) []).length
        = (c - 1) + s.length + ((lines.getD (l - 1) []).length - (c - 1)) := by
      rw [hmidget]
      simp only [List.length_append, List.length_take, List.length_drop]
      omega
    have hensf : ensureLinePosition mid l c false = none := by
      unfold ensureLinePosition
      rw [if_neg hmidnil, if_neg (by omega)]
      rw [if_neg ?hc]
      case hc =>
        push_neg
        refine ⟨by omega, ?_⟩
        have hcle : c ≤ (mid.getD (l - 1) []).length := by omega
        simpa using hcle
    unfold deleteSpan
    rw [hensf]
    simp only
    rw [if_neg (by omega), if_neg ?hov]
    case hov =>
      push_neg
      omega
    show mid.set (l - 1) ((mid.getD (l - 1) []).take (c - 1)
      ++ (mid.getD (l - 1) []).drop (c - 1 + s.length)) = lines
    have htake : (mid.getD (l - 1) []).take (c - 1)
        = (lines.getD (l - 1) []).take (c - 1) := by
      rw [hmidget, List.append_assoc]
      exact List.take_left' hlablen
    have hdrop : (mid.getD (l - 1) []).drop (c - 1 + s.length)
        = (lines.getD (l - 1) []).drop (c - 1) := by
      rw [hmidget]
      have hlen2 : ((lines.getD (l - 1) []).take (c - 1) ++ s).length = c - 1 + s.length := by
        rw [List.length_append, hlablen]
      exact List.drop_left' hlen2
    rw [htake, hdrop, hmid, List.set_set, List.take_append_drop, list_set_getD_self]

theorem applyTextOp_lines (e : TextEditor) (op : TextOp) :
    ((applyTextOp e op).2).lines = (op.mutate e.lines).2 := by
  unfold applyTextOp TextEditor.execute
  rcases hm : op.mutate e.lines with ⟨merr, ls⟩
  cases merr <;> rfl

/-- Claim C7 as frozen quantifies over every text buffer, including the
empty one.  There the insert first materializes one empty line which the
delete never removes: on the empty buffer, inserting the LF-free string
"a" at 1:1 and deleting one code point at 1:1 both succeed, yet the
buffer ends as one empty line instead of the original empty line list. -/
theorem claim7_counterexample :
    insertSpan [] 1 1 "a".toList = (none, ["a".toList]) ∧
    '\n' ∉ "a".toList ∧
    deleteSpan ["a".toList] 1 1 ("a".toList).length = (none, [[]]) ∧
    ([[]] : List Str) ≠ [] :=
  ⟨by decide, by decide, by decide, by decide⟩

/-- Claim C7, amended with the non-empty buffer proviso the counterexample
forces: on a non-empty buffer, a successful `Insert(l, c, s)` with `s`
free of LF followed by `Delete(l, c, |s|)` (code-point count) leaves
`lines` exactly as before the insert. -/
theorem claim7_roundtrip (e : TextEditor) (l c : Nat) (s : Str) (e1 : TextEditor)
    (hnil : e.lines ≠ []) (hs : '\n' ∉ s)
    (h : applyTextOp e (.insert l c s) = (none, e1)) :
    ((applyTextOp e1 (.delete l c s.length)).2).lines = e.lines := by
  obtain ⟨hmut, hshape⟩ := applyTextOp_ok h
  have hlines : e1.lines = (insertSpan e.lines l c s).2 := by
    rw [hshape]
    rfl
  have hins : insertSpan e.lines l c s = (none, e1.lines) := by
    rw [hlines, ← hmut]
    rfl
  rw [applyTextOp_lines]
  show (deleteSpan e1.lines l c s.length).2 = e.lines
  exact roundtrip_lines hnil hs hins

/-- Witness for C7 on the buffer `["hello"]`. -/
theorem claim7_witness :
    ((applyTextOp
        ((applyTextOp (NewTextEditor "w.txt" ["hello".toList] false)
          (.insert 1 3 "xy".toList)).2)
        (.delete 1 3 ("xy".toList).length)).2).lines = ["hello".toList] :=
  claim7_roundtrip (NewTextEditor "w.txt" ["hello".toList] false) 1 3 "xy".toList
    ((applyTextOp (NewTextEditor "w.txt" ["hello".toList] false)
        (.insert 1 3 "xy".toList)).2)
    (by decide) (by decide) (by decide)

/-- Claim C10: loading file content drops a single trailing newline.
With `nd` the CR-LF-normalized content, if `nd` ends in exactly one LF
then the loaded buffer serializes (`Content`, hence an immediate save)
to `nd` without that final LF; if `nd` does not end in LF, `Content`
reproduces `nd` exactly.  `splitLines` is the helper `Load` uses to cut
file data into buffer lines. -/
theorem claim10_trailing_newline (path : String) (modified : Bool) (d : Str) :
    (∀ e1, normalizeCRLF d = e1 ++ ['\n'] → e1.getLast? ≠ some '\n' →
      (NewTextEditor path (splitLines d) modified).Content = e1) ∧
    ((normalizeCRLF d).getLast? ≠ some '\n' →
      (NewTextEditor path (splitLines d) modified).Content = normalizeCRLF d) := by
  constructor
  · intro e1 hnd hlast
    have hdnil : d ≠ [] := by
      intro hcon
      rw [hcon] at hnd
      exact absurd hnd.symm (by simp [normalizeCRLF])
    show joinLF (splitLines d) = e1
    unfold splitLines
    rw [if_neg hdnil, hnd, splitOnLF_append_lf]
    rw [if_pos (by rw [List.getLast?_concat])]
    rw [List.dropLast_concat]
    exact joinLF_splitOnLF e1
  · intro hlast
    by_cases hdnil : d = []
    · subst hdnil
      rfl
    · have hndnil : normalizeCRLF d ≠ [] := by
        intro hcon
        exact hdnil ((normalizeCRLF_eq_nil_iff d).mp hcon)
      show joinLF (splitLines d) = normalizeCRLF d
      unfold splitLines
      rw [if_neg hdnil,
        if_neg (splitOnLF_getLast_of_ne (normalizeCRLF d) hndnil hlast)]
      exact joinLF_splitOnLF (normalizeCRLF d)

/-- Witness for C10 at content "a\n" (trailing LF dropped) and "b"
(reproduced exactly). -/
theorem claim10_witness :
    (NewTextEditor "w.txt" (splitLines ("a\n".toList)) false).Content = "a".toList ∧
    (NewTextEditor "w.txt" (splitLines ("b".toList)) false).Content
      = normalizeCRLF ("b".toList) :=
  ⟨(claim10_trailing_newline "w.txt" false ("a\n".toList)).1 "a".toList
      (by decide) (by decide),
    (claim10_trailing_newline "w.txt" false ("b".toList)).2 (by decide)⟩

/-! ## XML buffer (`XMLEditor`, src/src/editor/xml_editor.go)

A DOM element carries `Tag`, `ID`, ordered `Attributes`, `Text` and
`Children`; the Go parent back-pointer is not part of the value — it is
recomputed from the tree shape (`rebuildIndex` re-links it on every
snapshot restore), so here a node is simply the root of its subtree and
"the parent of the node with id t" is obtained by searching the tree.
`Children` is a mutually inductive list so that all tree functions are
structurally recursive. -/

mutual
inductive XMLNode : Type where
  | mk (tag id : String) (attributes : List (String × String)) (text : Str)
      (children : XMLNodes)
inductive XMLNodes : Type where
  | nil
  | cons (head : XMLNode) (tail : XMLNodes)
end

/-- Projection of the `Tag` field. -/
def XMLNode.tag : XMLNode → String
  | .mk t _ _ _ _ => t

/-- Projection of the `ID` field. -/
def XMLNode.id : XMLNode → String
  | .mk _ i _ _ _ => i

/-- Projection of the `Attributes` field. -/
def XMLNode.attributes : XMLNode → List (String × String)
  | .mk _ _ a _ _ => a

/-- Projection of the `Text` field. -/
def XMLNode.text : XMLNode → Str
  | .mk _ _ _ tx _ => tx

/-- Projection of the `Children` field. -/
def XMLNode.children : XMLNode → XMLNodes
  | .mk _ _ _ _ cs => cs

/-- Concatenation of child lists (Go slice append). -/
def XMLNodes.append : XMLNodes → XMLNodes → XMLNodes
  | .nil, ys => ys
  | .cons x xs, ys => .cons x (xs.append ys)

/-! Ids of all nodes reachable from a node, in document (preorder)
order — the ids `rebuildIndex` would register. -/
mutual
def reachIDs : XMLNode → List String
  | .mk _ i _ _ cs => i :: reachIDsL cs
def reachIDsL : XMLNodes → List String
  | .nil => []
  | .cons c cs => reachIDs c ++ reachIDsL cs
end

/-! All nodes reachable from a node (the node itself included), in
document order. -/
mutual
def reachNodes : XMLNode → List XMLNode
  | .mk t i a tx cs => .mk t i a tx cs :: reachNodesL cs
def reachNodesL : XMLNodes → List XMLNode
  | .nil => []
  | .cons c cs => reachNodes c ++ reachNodesL cs
end

/-! The mixed-content exclusion: an element whose trimmed text is
non-empty has no children, recursively. -/
mutual
def NoMixed : XMLNode → Prop
  | .mk _ _ _ tx cs => (trimSpace tx ≠ [] → cs = .nil) ∧ NoMixedL cs
def NoMixedL : XMLNodes → Prop
  | .nil => True
  | .cons c cs => NoMixed c ∧ NoMixedL cs
end

/-! First node in document order carrying the given id — the node the Go
code reaches through the pointer stored in `index` (under the id
uniqueness invariant that node is unique). -/
mutual
def findNode (tid : String) : XMLNode → Option XMLNode
  | .mk t i a tx cs =>
    if i = tid then some (.mk t i a tx cs) else findNodeL tid cs
def findNodeL (tid : String) : XMLNodes → Option XMLNode
  | .nil => none
  | .cons c cs =>
    match findNode tid c with
    | some n => some n
    | none => findNodeL tid cs
end

/-- Does some direct child carry the given id? -/
def XMLNodes.anyID : XMLNodes → String → Bool
  | .nil, _ => false
  | .cons c cs, tid => c.id = tid || cs.anyID tid

/-! First node in document order having a direct child with the given
id — the `Parent` pointer of that child. -/
mutual
def findParent (tid : String) : XMLNode → Option XMLNode
  | .mk t i a tx cs =>
    if cs.anyID tid then some (.mk t i a tx cs) else findParentL tid cs
def findParentL (tid : String) : XMLNodes → Option XMLNode
  | .nil => none
  | .cons c cs =>
    match findParent tid c with
    | some n => some n
    | none => findParentL tid cs
end

/-! Splice a new node directly in front of the (first) node with the
target id, as `InsertBefore` does through the parent's child slice. -/
mutual
def insBefore (m : XMLNode) (tid : String) : XMLNode → XMLNode
  | .mk t i a tx cs => .mk t i a tx (insBeforeL m tid cs)
def insBeforeL (m : XMLNode) (tid : String) : XMLNodes → XMLNodes
  | .nil => .nil
  | .cons c cs =>
    if c.id = tid then .cons m (.cons c cs)
    else .cons (insBefore m tid c) (insBeforeL m tid cs)
end

/-! Append a new node at the end of the children of the node with the
given id, as `AppendChild` does. -/
mutual
def appendAt (m : XMLNode) (tid : String) : XMLNode → XMLNode
  | .mk t i a tx cs =>
    if i = tid then .mk t i a tx (cs.append (.cons m .nil))
    else .mk t i a tx (appendAtL m tid cs)
def appendAtL (m : XMLNode) (tid : String) : XMLNodes → XMLNodes
  | .nil => .nil
  | .cons c cs => .cons (appendAt m tid c) (appendAtL m tid cs)
end

/-- Update the value of the last attribute named "id" (the Go
`attrIndex` map records the last occurrence of each name), appending a
fresh id attribute when none exists, as `EditID` does. -/
def setIdAttr (attrs : List (String × String)) (newID : String) :
    List (String × String) :=
  match goRev attrs.reverse with
  | some r => r.reverse
  | none => attrs ++ [("id", newID)]
where
  goRev : List (String × String) → Option (List (String × String))
    | [] => none
    | a :: rest =>
      if a.1 = "id" then some (("id", newID) :: rest)
      else (goRev rest).map (a :: ·)

/-! Rewrite the id (and id attribute) of the node with the old id, as
`EditID` does on the node reached through the index. -/
mutual
def editIDT (oldID newID : String) : XMLNode → XMLNode
  | .mk t i a tx cs =>
    if i = oldID then .mk t newID (setIdAttr a newID) tx cs
    else .mk t i a tx (editIDTL oldID newID cs)
def editIDTL (oldID newID : String) : XMLNodes → XMLNodes
  | .nil => .nil
  | .cons c cs => .cons (editIDT oldID newID c) (editIDTL oldID newID cs)
end

/-! Replace the text of the node with the given id, as `EditText` does. -/
mutual
def editTextT (eid : String) (tx1 : Str) : XMLNode → XMLNode
  | .mk t i a tx cs =>
    if i = eid then .mk t i a tx1 cs else .mk t i a tx (editTextTL eid tx1 cs)
def editTextTL (eid : String) (tx1 : Str) : XMLNodes → XMLNodes
  | .nil => .nil
  | .cons c cs => .cons (editTextT eid tx1 c) (editTextTL eid tx1 cs)
end

/-! Splice the (first) child with the given id out of its parent's
children, as `DeleteElement` does. -/
mutual
def delElem (tid : String) : XMLNode → XMLNode
  | .mk t i a tx cs => .mk t i a tx (delElemL tid cs)
def delElemL (tid : String) : XMLNodes → XMLNodes
  | .nil => .nil
  | .cons c cs =>
    if c.id = tid then cs else .cons (delElem tid c) (delElemL tid cs)
end

/-- Failure kinds of the XML editor, one per distinct error in the
source. -/
inductive XMLErr where
  | duplicateId
  | notFound
  | rootProtected
  | mixedContent
  | historyEmpty
deriving DecidableEq

/-- Snapshot pair pushed by `XMLEditor.execute` (`xmlCommand`): full
before and after trees (clones in Go; pure values here). -/
structure XMLCommand where
  description : String
  before : XMLNode
  after : XMLNode

/-- The XML editor state (Go struct `XMLEditor`).  The Go `index` maps
ids to node pointers; a pure tree has no pointer identity, so the
embedding keeps the key set of the map, on which all the source's
membership checks operate, and locates the indexed node by searching the
tree for its id (equivalent under the index-exactness invariant proved
below). -/
structure XMLEditor where
  path : String
  root : XMLNode
  index : List String
  modified : Bool
  undoStack : List XMLCommand
  redoStack : List XMLCommand

/-- Helper `createXMLNode`: fresh element with the single id attribute
and optional text. -/
def createXMLNode (tag id : String) (text : Option Str) : XMLNode :=
  .mk tag id [("id", id)] (text.getD []) .nil

/-- Key set registered by `rebuildIndex`: every reachable id, inserted
in document order. -/
def rebuildIndexKeys (root : XMLNode) : List String :=
  (reachIDs root).foldl addKey []

/-- Constructor `NewXMLEditor`: index rebuilt from the root. -/
def NewXMLEditor (path : String) (root : XMLNode) (modified : Bool) : XMLEditor :=
  { path := path, root := root, index := rebuildIndexKeys root,
    modified := modified, undoStack := [], redoStack := [] }

/-- Constructor `NewDefaultXMLDocument`: the lab default root
`<root id="root">`, with a `log="true"` attribute when requested. -/
def NewDefaultXMLDocument (withLog : Bool) : XMLNode :=
  .mk "root" "root"
    (if withLog then [("id", "root"), ("log", "true")] else [("id", "root")])
    [] .nil

/-- Mutation body of `InsertBefore`.  The Go root test is
`target.Parent == nil`; through the index invariant the indexed target
is the unique reachable node with that id, so the test is embedded as
`root.id = targetID`, and the parent pointer as `findParent`. -/
def xmlInsertBefore (tag newID targetID : String) (text : Option Str)
    (root : XMLNode) (index : List String) :
    Option XMLErr × XMLNode × List String :=
  if newID ∈ index then (some .duplicateId, root, index)
  else if targetID ∉ index then (some .notFound, root, index)
  else if root.id = targetID then (some .rootProtected, root, index)
  else
    match findParent targetID root with
    | none => (some .notFound, root, index)
    | some p =>
      if trimSpace p.text ≠ [] then (some .mixedContent, root, index)
      else (none, insBefore (createXMLNode tag newID text) targetID root,
            addKey index newID)

/-- Mutation body of `AppendChild`. -/
def xmlAppendChild (tag newID parentID : String) (text : Option Str)
    (root : XMLNode) (index : List String) :
    Option XMLErr × XMLNode × List String :=
  if newID ∈ index then (some .duplicateId, root, index)
  else if parentID ∉ index then (some .notFound, root, index)
  else
    match findNode parentID root with
    | none => (some .notFound, root, index)
    | some p =>
      if trimSpace p.text ≠ [] then (some .mixedContent, root, index)
      else (none, appendAt (createXMLNode tag newID text) parentID root,
            addKey index newID)

/-- Mutation body of `EditID`: old entry removed, node rewritten, new
entry installed. -/
def xmlEditID (oldID newID : String) (root : XMLNode) (index : List String) :
    Option XMLErr × XMLNode × List String :=
  if oldID ∉ index then (some .notFound, root, index)
  else if root.id = oldID then (some .rootProtected, root, index)
  else if newID ∈ index then (some .duplicateId, root, index)
  else (none, editIDT oldID newID root, addKey (delKey index oldID) newID)

/-- Mutation body of `EditText`: requires the element to have no
children; an empty text is legal. -/
def xmlEditText (elementID : String) (tx : Str) (root : XMLNode)
    (index : List String) : Option XMLErr × XMLNode × List String :=
  if elementID ∉ index then (some .notFound, root, index)
  else
    match findNode elementID root with
    | none => (some .notFound, root, index)
    | some n =>
      match n.children with
      | .cons _ _ => (some .mixedContent, root, index)
      | .nil => (none, editTextT elementID tx root, index)

/-- Mutation body of `DeleteElement`: the subtree is spliced out and all
its ids leave the index (`removeFromIndex`). -/
def xmlDeleteElement (elementID : String) (root : XMLNode)
    (index : List String) : Option XMLErr × XMLNode × List String :=
  if elementID ∉ index then (some .notFound, root, index)
  else if root.id = elementID then (some .rootProtected, root, index)
  else
    match findNode elementID root with
    | none => (some .notFound, root, index)
    | some n => (none, delElem elementID root, delKeys index (reachIDs n))

/-- Command wrapper `XMLEditor.execute`: snapshot before, mutate, on
success snapshot after and push the pair, clear redo, set modified. -/
def XMLEditor.execute (e : XMLEditor) (desc : String)
    (mutate : XMLNode → List String → Option XMLErr × XMLNode × List String) :
    Option XMLErr × XMLEditor :=
  let before := e.root
  match mutate e.root e.index with
  | (some err, r, i) => (some err, { e with root := r, index := i })
  | (none, r, i) =>
    (none,
      { e with
        root := r
        index := i
        undoStack := ⟨desc, before, r⟩ :: e.undoStack
        redoStack := []
        modified := true })

/-- Snapshot restore (`applySnapshot`): the snapshot becomes the root
(deep-cloned in Go) and the index is rebuilt from scratch. -/
def XMLEditor.applySnapshot (e : XMLEditor) (snap : XMLNode) : XMLEditor :=
  { e with root := snap, index := rebuildIndexKeys snap }

/-- Undo: pop, restore the before-snapshot, push onto redo, set
modified. -/
def XMLEditor.Undo (e : XMLEditor) : Option XMLErr × XMLEditor :=
  match e.undoStack with
  | [] => (some .historyEmpty, e)
  | cmd :: rest =>
    (none,
      { e.applySnapshot cmd.before with
        undoStack := rest
        redoStack := cmd :: e.redoStack
        modified := true })

/-- Redo: pop, restore the after-snapshot, push onto undo, set
modified. -/
def XMLEditor.Redo (e : XMLEditor) : Option XMLErr × XMLEditor :=
  match e.redoStack with
  | [] => (some .historyEmpty, e)
  | cmd :: rest =>
    (none,
      { e.applySnapshot cmd.after with
        redoStack := rest
        undoStack := cmd :: e.undoStack
        modified := true })

/-- The public XML buffer operations. -/
inductive XMLOp where
  | insertBefore (tag newID targetID : String) (text : Option Str)
  | appendChild (tag newID parentID : String) (text : Option Str)
  | editID (oldID newID : String)
  | editText (elementID : String) (text : Str)
  | deleteElement (elementID : String)
  | undo
  | redo

/-- The five operations that go through `execute` (as opposed to
Undo/Redo). -/
def XMLOp.isMutating : XMLOp → Bool
  | .undo => false
  | .redo => false
  | _ => true

/-- Label passed to `execute` by each mutating operation. -/
def XMLOp.description : XMLOp → String
  | .insertBefore _ _ _ _ => "insert-before"
  | .appendChild _ _ _ _ => "append-child"
  | .editID _ _ => "edit-id"
  | .editText _ _ => "edit-text"
  | .deleteElement _ => "delete-element"
  | .undo => "undo"
  | .redo => "redo"

/-- Dispatch of the XML operations. -/
def applyXMLOp (e : XMLEditor) : XMLOp → Option XMLErr × XMLEditor
  | .insertBefore tag newID targetID text =>
    e.execute "insert-before" (xmlInsertBefore tag newID targetID text)
  | .appendChild tag newID parentID text =>
    e.execute "append-child" (xmlAppendChild tag newID parentID text)
  | .editID oldID newID => e.execute "edit-id" (xmlEditID oldID newID)
  | .editText elementID text => e.execute "edit-text" (xmlEditText elementID text)
  | .deleteElement elementID =>
    e.execute "delete-element" (xmlDeleteElement elementID)
  | .undo => e.Undo
  | .redo => e.Redo

/-! ## XML parsing (`parseXML`)

The Go parser consumes the token stream of `encoding/xml`; tokens are
embedded as plain values.  Go appends each element to its parent's child
slice already at its start tag and then mutates it in place; the pure
version attaches the finished node when its end tag is consumed, which
produces the same tree for every stream the decoder delivers (the
decoder rejects EOF inside an open element, modelled by the final stack
check, and well-nested streams finish every element).  A second
top-level element overwrites `root`, as in the source. -/

/-- Token forms of `encoding/xml` relevant to `parseXML`; every other
token kind is skipped by the source's default case. -/
inductive XMLToken where
  | start (tag : String) (attrs : List (String × String))
  | close
  | chardata (data : Str)
  | comment
  | other

/-- Parse failures, one per distinct error in the source (the
`unexpectedEOF` case is the decoder's, surfaced through `Token()`). -/
inductive PErr where
  | missingID
  | duplicateID
  | mixedContent
  | mismatched
  | unexpectedEOF
  | noRoot
deriving DecidableEq

/-- Id extraction of the start-element loop: the last attribute named
"id" wins, and an absent or empty id is reported as missing. -/
def extractID (attrs : List (String × String)) : String :=
  attrs.foldl (fun acc a => if a.1 = "id" then a.2 else acc) ""

/-- Parser state: the stack of open elements (children collected so
far, top at the head), the root seen so far, and the set of ids. -/
structure PState where
  stack : List XMLNode
  root : Option XMLNode
  ids : List String

/-- One step of the parse loop. -/
def pstep : PState → XMLToken → Except PErr PState
  | ⟨stack, root, ids⟩, .start tag attrs =>
    if extractID attrs = "" then .error .missingID
    else if extractID attrs ∈ ids then .error .duplicateID
    else
      match stack with
      | parent :: _ =>
        if trimSpace parent.text = [] then
          .ok ⟨XMLNode.mk tag (extractID attrs) attrs [] .nil :: stack,
               root, extractID attrs :: ids⟩
        else .error .mixedContent
      | [] => .ok ⟨[XMLNode.mk tag (extractID attrs) attrs [] .nil],
                   root, extractID attrs :: ids⟩
  | ⟨stack, root, ids⟩, .close =>
    match stack with
    | [] => .error .mismatched
    | n :: rest =>
      match rest with
      | [] => .ok ⟨[], some n, ids⟩
      | .mk tp ip ap txp csp :: rest2 =>
        .ok ⟨XMLNode.mk tp ip ap txp (csp.append (.cons n .nil)) :: rest2,
             root, ids⟩
  | ⟨stack, root, ids⟩, .chardata data =>
    match stack with
    | [] => .ok ⟨stack, root, ids⟩
    | cur :: rest =>
      if trimSpace data = [] then .ok ⟨cur :: rest, root, ids⟩
      else
        match cur with
        | .mk _ _ _ _ (.cons _ _) => .error .mixedContent
        | .mk tc ic ac txc .nil =>
          .ok ⟨XMLNode.mk tc ic ac
                 (if trimSpace txc = [] then trimSpace data
                  else txc ++ ' ' :: trimSpace data) .nil :: rest, root, ids⟩
  | st, .comment => .ok st
  | st, .other => .ok st

/-- The parse loop from a given state (the source's for-loop). -/
def pRunFrom (st : PState) : List XMLToken → Except PErr PState
  | [] => .ok st
  | t :: ts =>
    match pstep st t with
    | .error e => .error e
    | .ok st2 => pRunFrom st2 ts

/-- The parse loop over the whole token stream. -/
def pRun (toks : List XMLToken) : Except PErr PState :=
  pRunFrom ⟨[], none, []⟩ toks

/-- Parser entry point: run the loop, reject unterminated elements and a
missing root. -/
def parseXML (toks : List XMLToken) : Except PErr XMLNode :=
  match pRun toks with
  | .error e => .error e
  | .ok st =>
    match st.stack with
    | _ :: _ => .error .unexpectedEOF
    | [] =>
      match st.root with
      | none => .error .noRoot
      | some r => .ok r

/-- Editor construction from parsed bytes (`ParseXMLEditor`). -/
def ParseXMLEditor (path : String) (toks : List XMLToken) :
    Except PErr XMLEditor :=
  match parseXML toks with
  | .error e => .error e
  | .ok root => .ok (NewXMLEditor path root false)

/-! ## Reachable XML editor states -/

/-- Well-formed tree: pairwise distinct reachable ids and the
mixed-content exclusion. -/
def GoodTree (n : XMLNode) : Prop :=
  (reachIDs n).Nodup ∧ NoMixed n

/-- The index key set holds exactly the reachable ids. -/
def IndexExact (e : XMLEditor) : Prop :=
  ∀ s, s ∈ e.index ↔ s ∈ reachIDs e.root

/-- Every snapshot on the two history stacks is a well-formed tree. -/
def StacksGood (e : XMLEditor) : Prop :=
  (∀ cmd ∈ e.undoStack, GoodTree cmd.before ∧ GoodTree cmd.after) ∧
  (∀ cmd ∈ e.redoStack, GoodTree cmd.before ∧ GoodTree cmd.after)

/-- The full editor invariant. -/
def XMLInv (e : XMLEditor) : Prop :=
  IndexExact e ∧ GoodTree e.root ∧ StacksGood e

/-- States of the XML buffer reachable by parsing a document and then
applying any sequence of successful public operations. -/
inductive XReach : XMLEditor → Prop where
  | parsed (path : String) (toks : List XMLToken) (root : XMLNode) :
      parseXML toks = .ok root → XReach (NewXMLEditor path root false)
  | step (e : XMLEditor) (op : XMLOp) (e2 : XMLEditor) :
      XReach e → applyXMLOp e op = (none, e2) → XReach e2

/-! ## Basic lemmas about the XML tree functions -/

theorem reachIDsL_append : ∀ a b : XMLNodes,
    reachIDsL (a.append b) = reachIDsL a ++ reachIDsL b
  | .nil, b => by simp [XMLNodes.append, reachIDsL]
  | .cons c cs, b => by
    simp [XMLNodes.append, reachIDsL, reachIDsL_append cs b]

theorem reachNodesL_append : ∀ a b : XMLNodes,
    reachNodesL (a.append b) = reachNodesL a ++ reachNodesL b
  | .nil, b => by simp [XMLNodes.append, reachNodesL]
  | .cons c cs, b => by
    simp [XMLNodes.append, reachNodesL, reachNodesL_append cs b]

mutual
theorem reachIDs_eq_map : ∀ n : XMLNode,
    reachIDs n = (reachNodes n).map XMLNode.id
  | .mk t i a tx cs => by
    simp [reachIDs, reachNodes, XMLNode.id, reachIDsL_eq_map cs]
theorem reachIDsL_eq_map : ∀ cs : XMLNodes,
    reachIDsL cs = (reachNodesL cs).map XMLNode.id
  | .nil => rfl
  | .cons c cs => by
    simp [reachIDsL, reachNodesL, reachIDs_eq_map c, reachIDsL_eq_map cs]
end

theorem self_mem_reachIDs : ∀ n : XMLNode, n.id ∈ reachIDs n
  | .mk t i a tx cs => by simp [reachIDs, XMLNode.id]

theorem self_mem_reachNodes : ∀ n : XMLNode, n ∈ reachNodes n
  | .mk t i a tx cs => by simp [reachNodes]

mutual
theorem findNode_spec : ∀ n : XMLNode, ∀ {p : XMLNode},
    findNode tid n = some p → p ∈ reachNodes n ∧ p.id = tid
  | .mk t i a tx cs, p, h => by
    rw [findNode] at h
    split at h
    · rename_i hi
      cases h
      exact ⟨self_mem_reachNodes _, by simp [XMLNode.id, hi]⟩
    · have := findNodeL_spec cs h
      exact ⟨by simp [reachNodes, this.1], this.2⟩
theorem findNodeL_spec : ∀ cs : XMLNodes, ∀ {p : XMLNode},
    findNodeL tid cs = some p → p ∈ reachNodesL cs ∧ p.id = tid
  | .cons c cs, p, h => by
    rw [findNodeL] at h
    split at h
    · rename_i n hn
      cases h
      have := findNode_spec c hn
      exact ⟨by simp [reachNodesL, this.1], this.2⟩
    · have := findNodeL_spec cs h
      exact ⟨by simp [reachNodesL, this.1], this.2⟩
end

mutual
theorem findNode_eq_none : ∀ n : XMLNode, tid ∉ reachIDs n → findNode tid n = none
  | .mk t i a tx cs, h => by
    simp only [reachIDs, List.mem_cons, not_or] at h
    rw [findNode, if_neg (fun hc => h.1 hc.symm)]
    exact findNodeL_eq_none cs h.2
theorem findNodeL_eq_none : ∀ cs : XMLNodes, tid ∉ reachIDsL cs → findNodeL tid cs = none
  | .nil, _ => rfl
  | .cons c cs, h => by
    simp only [reachIDsL, List.mem_append, not_or] at h
    rw [findNodeL, findNode_eq_none c h.1]
    exact findNodeL_eq_none cs h.2
end

mutual
theorem findNode_isSome : ∀ n : XMLNode, tid ∈ reachIDs n → (findNode tid n).isSome
  | .mk t i a tx cs, h => by
    rw [findNode]
    split
    · simp
    · rename_i hi
      simp only [reachIDs, List.mem_cons] at h
      rcases h with h | h
      · exact absurd h.symm hi
      · exact findNodeL_isSome cs h
theorem findNodeL_isSome : ∀ cs : XMLNodes, tid ∈ reachIDsL cs → (findNodeL tid cs).isSome
  | .cons c cs, h => by
    rw [findNodeL]
    split
    · simp
    · rename_i hnone
      simp only [reachIDsL, List.mem_append] at h
      rcases h with h | h
      · have := findNode_isSome c h
        rw [hnone] at this
        simp at this
      · exact findNodeL_isSome cs h
end

theorem mem_rebuildIndexKeys (r : XMLNode) (s : String) :
    s ∈ rebuildIndexKeys r ↔ s ∈ reachIDs r := by
  unfold rebuildIndexKeys
  have main : ∀ (l init : List String), s ∈ l.foldl addKey init ↔ s ∈ init ∨ s ∈ l := by
    intro l
    induction l with
    | nil => simp
    | cons k ks ih =>
      intro init
      rw [List.foldl_cons, ih, mem_addKey]
      constructor
      · rintro ((rfl | h) | h)
        · exact Or.inr (List.mem_cons_self _ _)
        · exact Or.inl h
        · exact Or.inr (List.mem_cons_of_mem _ h)
      · rintro (h | h)
        · exact Or.inl (Or.inr h)
        · rcases List.mem_cons.mp h with rfl | h
          · exact Or.inl (Or.inl rfl)
          · exact Or.inr h
  rw [main]
  simp

theorem NoMixedL_append : ∀ a b : XMLNodes,
    NoMixedL a → NoMixedL b → NoMixedL (a.append b)
  | .nil, b, _, hb => hb
  | .cons c cs, b, ha, hb => by
    rw [NoMixedL] at ha
    exact ⟨ha.1, NoMixedL_append cs b ha.2 hb⟩

theorem id_eq_of_mk {t i : String} {a : List (String × String)} {tx : Str}
    {cs : XMLNodes} : (XMLNode.mk t i a tx cs).id = i := rfl

mutual
theorem insBefore_no_occ (m : XMLNode) (tid : String) :
    ∀ n : XMLNode, tid ∉ reachIDs n → insBefore m tid n = n
  | .mk t i a tx cs, h => by
    simp only [reachIDs, List.mem_cons, not_or] at h
    rw [insBefore, insBeforeL_no_occ m tid cs h.2]
theorem insBeforeL_no_occ (m : XMLNode) (tid : String) :
    ∀ cs : XMLNodes, tid ∉ reachIDsL cs → insBeforeL m tid cs = cs
  | .nil, _ => rfl
  | .cons c cs, h => by
    simp only [reachIDsL, List.mem_append, not_or] at h
    have hcid : c.id ≠ tid := fun hcon => h.1 (hcon ▸ self_mem_reachIDs c)
    rw [insBeforeL, if_neg hcid, insBefore_no_occ m tid c h.1,
      insBeforeL_no_occ m tid cs h.2]
end

mutual
theorem appendAt_no_occ (m : XMLNode) (tid : String) :
    ∀ n : XMLNode, tid ∉ reachIDs n → appendAt m tid n = n
  | .mk t i a tx cs, h => by
    simp only [reachIDs, List.mem_cons, not_or] at h
    rw [appendAt, if_neg (fun hc => h.1 hc.symm), appendAtL_no_occ m tid cs h.2]
theorem appendAtL_no_occ (m : XMLNode) (tid : String) :
    ∀ cs : XMLNodes, tid ∉ reachIDsL cs → appendAtL m tid cs = cs
  | .nil, _ => rfl
  | .cons c cs, h => by
    simp only [reachIDsL, List.mem_append, not_or] at h
    rw [appendAtL, appendAt_no_occ m tid c h.1, appendAtL_no_occ m tid cs h.2]
end

mutual
theorem editIDT_no_occ (oldID newID : String) :
    ∀ n : XMLNode, oldID ∉ reachIDs n → editIDT oldID newID n = n
  | .mk t i a tx cs, h => by
    simp only [reachIDs, List.mem_cons, not_or] at h
    rw [editIDT, if_neg (fun hc => h.1 hc.symm), editIDTL_no_occ oldID newID cs h.2]
theorem editIDTL_no_occ (oldID newID : String) :
    ∀ cs : XMLNodes, oldID ∉ reachIDsL cs → editIDTL oldID newID cs = cs
  | .nil, _ => rfl
  | .cons c cs, h => by
    simp only [reachIDsL, List.mem_append, not_or] at h
    rw [editIDTL, editIDT_no_occ oldID newID c h.1, editIDTL_no_occ oldID newID cs h.2]
end

mutual
theorem delElem_no_occ (tid : String) :
    ∀ n : XMLNode, tid ∉ reachIDs n → delElem tid n = n
  | .mk t i a tx cs, h => by
    simp only [reachIDs, List.mem_cons, not_or] at h
    rw [delElem, delElemL_no_occ tid cs h.2]
theorem delElemL_no_occ (tid : String) :
    ∀ cs : XMLNodes, tid ∉ reachIDsL cs → delElemL tid cs = cs
  | .nil, _ => rfl
  | .cons c cs, h => by
    simp only [reachIDsL, List.mem_append, not_or] at h
    have hcid : c.id ≠ tid := fun hcon => h.1 (hcon ▸ self_mem_reachIDs c)
    rw [delElemL, if_neg hcid, delElem_no_occ tid c h.1, delElemL_no_occ tid cs h.2]
end

mutual
theorem noMixed_insBefore (m : XMLNode) (tid : String) (hm : NoMixed m) :
    ∀ n : XMLNode, NoMixed n → NoMixed (insBefore m tid n)
  | .mk t i a tx cs, hn => by
    rw [NoMixed] at hn
    rw [insBefore, NoMixed]
    constructor
    · intro htx
      rw [hn.1 htx]
      rfl
    · exact noMixedL_insBefore m tid hm cs hn.2
theorem noMixedL_insBefore (m : XMLNode) (tid : String) (hm : NoMixed m) :
    ∀ cs : XMLNodes, NoMixedL cs → NoMixedL (insBeforeL m tid cs)
  | .nil, _ => trivial
  | .cons c cs, h => by
    rw [NoMixedL] at h
    rw [insBeforeL]
    split
    · exact ⟨hm, h.1, h.2⟩
    · exact ⟨noMixed_insBefore m tid hm c h.1, noMixedL_insBefore m tid hm cs h.2⟩
end

mutual
theorem noMixed_editIDT (oldID newID : String) :
    ∀ n : XMLNode, NoMixed n → NoMixed (editIDT oldID newID n)
  | .mk t i a tx cs, hn => by
    rw [NoMixed] at hn
    rw [editIDT]
    split
    · exact hn
    · refine ⟨fun htx => ?_, noMixedL_editIDT oldID newID cs hn.2⟩
      rw [hn.1 htx]
      rfl
theorem noMixedL_editIDT (oldID newID : String) :
    ∀ cs : XMLNodes, NoMixedL cs → NoMixedL (editIDTL oldID newID cs)
  | .nil, _ => trivial
  | .cons c cs, h => by
    rw [NoMixedL] at h
    exact ⟨noMixed_editIDT oldID newID c h.1, noMixedL_editIDT oldID newID cs h.2⟩
end

mutual
theorem noMixed_delElem (tid : String) :
    ∀ n : XMLNode, NoMixed n → NoMixed (delElem tid n)
  | .mk t i a tx cs, hn => by
    rw [NoMixed] at hn
    rw [delElem, NoMixed]
    constructor
    · intro htx
      rw [hn.1 htx]
      rfl
    · exact noMixedL_delElem tid cs hn.2
theorem noMixedL_delElem (tid : String) :
    ∀ cs : XMLNodes, NoMixedL cs → NoMixedL (delElemL tid cs)
  | .nil, _ => trivial
  | .cons c cs, h => by
    rw [NoMixedL] at h
    rw [delElemL]
    split
    · exact h.2
    · exact ⟨noMixed_delElem tid c h.1, noMixedL_delElem tid cs h.2⟩
end

mutual
theorem reachIDs_editTextT (eid : String) (tx1 : Str) :
    ∀ n : XMLNode, reachIDs (editTextT eid tx1 n) = reachIDs n
  | .mk t i a tx cs => by
    rw [editTextT]
    split
    · rfl
    · rw [reachIDs, reachIDs, reachIDsL_editTextT eid tx1 cs]
theorem reachIDsL_editTextT (eid : String) (tx1 : Str) :
    ∀ cs : XMLNodes, reachIDsL (editTextTL eid tx1 cs) = reachIDsL cs
  | .nil => rfl
  | .cons c cs => by
    rw [editTextTL, reachIDsL, reachIDsL, reachIDs_editTextT eid tx1 c,
      reachIDsL_editTextT eid tx1 cs]
end

mutual
theorem noMixed_editTextT (eid : String) (tx1 : Str) :
    ∀ n : XMLNode, NoMixed n →
      (∀ p ∈ reachNodes n, p.id = eid → p.children = .nil) →
      NoMixed (editTextT eid tx1 n)
  | .mk t i a tx cs, hn, hq => by
    rw [NoMixed] at hn
    rw [editTextT]
    split
    · rename_i hi
      have hcs : cs = .nil := by
        have := hq (XMLNode.mk t i a tx cs) (self_mem_reachNodes _) (by rw [id_eq_of_mk, hi])
        simpa [XMLNode.children] using this
      subst hcs
      exact ⟨fun _ => rfl, trivial⟩
    · refine ⟨fun htx => ?_, noMixedL_editTextT eid tx1 cs hn.2 ?_⟩
      · rw [hn.1 htx]
        rfl
      · intro p hp hpe
        exact hq p (by simp [reachNodes, hp]) hpe
theorem noMixedL_editTextT (eid : String) (tx1 : Str) :
    ∀ cs : XMLNodes, NoMixedL cs →
      (∀ p ∈ reachNodesL cs, p.id = eid → p.children = .nil) →
      NoMixedL (editTextTL eid tx1 cs)
  | .nil, _, _ => trivial
  | .cons c cs, h, hq => by
    rw [NoMixedL] at h
    refine ⟨noMixed_editTextT eid tx1 c h.1 ?_, noMixedL_editTextT eid tx1 cs h.2 ?_⟩
    · intro p hp hpe
      exact hq p (by simp [reachNodesL, hp]) hpe
    · intro p hp hpe
      exact hq p (by simp [reachNodesL, hp]) hpe
end

mutual
theorem noMixed_appendAt (m : XMLNode) (tid : String) (hm : NoMixed m) :
    ∀ n : XMLNode, NoMixed n →
      (∀ p ∈ reachNodes n, p.id = tid → trimSpace p.text = []) →
      NoMixed (appendAt m tid n)
  | .mk t i a tx cs, hn, hq => by
    rw [NoMixed] at hn
    rw [appendAt]
    split
    · rename_i hi
      have htx : trimSpace tx = [] := by
        have := hq (XMLNode.mk t i a tx cs) (self_mem_reachNodes _) (by rw [id_eq_of_mk, hi])
        simpa [XMLNode.text] using this
      refine ⟨fun hcon => absurd htx hcon, ?_⟩
      exact NoMixedL_append cs _ hn.2 ⟨hm, trivial⟩
    · refine ⟨fun htx => ?_, noMixedL_appendAt m tid hm cs hn.2 ?_⟩
      · rw [hn.1 htx]
        rfl
      · intro p hp hpe
        exact hq p (by simp [reachNodes, hp]) hpe
theorem noMixedL_appendAt (m : XMLNode) (tid : String) (hm : NoMixed m) :
    ∀ cs : XMLNodes, NoMixedL cs →
      (∀ p ∈ reachNodesL cs, p.id = tid → trimSpace p.text = []) →
      NoMixedL (appendAtL m tid cs)
  | .nil, _, _ => trivial
  | .cons c cs, h, hq => by
    rw [NoMixedL] at h
    refine ⟨noMixed_appendAt m tid hm c h.1 ?_, noMixedL_appendAt m tid hm cs h.2 ?_⟩
    · intro p hp hpe
      exact hq p (by simp [reachNodesL, hp]) hpe
    · intro p hp hpe
      exact hq p (by simp [reachNodesL, hp]) hpe
end

theorem perm_swap_append {α : Type} (X Y Z : List α) :
    (X ++ (Y ++ Z)).Perm (Y ++ (X ++ Z)) := by
  rw [← List.append_assoc, ← List.append_assoc]
  exact List.Perm.append_right Z List.perm_append_comm

theorem unique_by_id {n : XMLNode} (hnd : (reachIDs n).Nodup) {p q : XMLNode}
    (hp : p ∈ reachNodes n) (hq : q ∈ reachNodes n) (heq : p.id = q.id) : p = q := by
  rw [reachIDs_eq_map] at hnd
  exact List.inj_on_of_nodup_map hnd hp hq heq

theorem reachIDs_createXMLNode (tag id : String) (text : Option Str) :
    reachIDs (createXMLNode tag id text) = [id] := rfl

theorem noMixed_createXMLNode (tag id : String) (text : Option Str) :
    NoMixed (createXMLNode tag id text) :=
  ⟨fun _ => rfl, trivial⟩

mutual
theorem reachIDs_insBefore (m : XMLNode) (tid : String) :
    ∀ n : XMLNode, (reachIDs n).Nodup → tid ∈ reachIDs n → n.id ≠ tid →
      (reachIDs (insBefore m tid n)).Perm (reachIDs m ++ reachIDs n)
  | .mk t i a tx cs, hnd, hmem, hid => by
    rw [id_eq_of_mk] at hid
    rw [reachIDs] at hnd hmem ⊢
    rw [insBefore, reachIDs]
    have hmem2 : tid ∈ reachIDsL cs := by
      rcases List.mem_cons.mp hmem with h | h
      · exact absurd h.symm hid
      · exact h
    have hperm := reachIDsL_insBefore m tid cs hnd.of_cons hmem2
    exact (hperm.cons i).trans List.perm_middle.symm
theorem reachIDsL_insBefore (m : XMLNode) (tid : String) :
    ∀ cs : XMLNodes, (reachIDsL cs).Nodup → tid ∈ reachIDsL cs →
      (reachIDsL (insBeforeL m tid cs)).Perm (reachIDs m ++ reachIDsL cs)
  | .nil, _, hmem => absurd hmem (by simp [reachIDsL])
  | .cons c cs, hnd, hmem => by
    rw [reachIDsL] at hnd hmem
    rw [insBeforeL]
    obtain ⟨hnc, hncs, hdisj⟩ := List.nodup_append.mp hnd
    by_cases hcid : c.id = tid
    · rw [if_pos hcid]
      simp only [reachIDsL]
      exact List.Perm.refl _
    · rw [if_neg hcid]
      simp only [reachIDsL]
      rcases List.mem_append.mp hmem with hm1 | hm2
      · have hnotcs : tid ∉ reachIDsL cs := fun hc => hdisj hm1 hc
        rw [insBeforeL_no_occ m tid cs hnotcs]
        have hp : (reachIDs (insBefore m tid c) ++ reachIDsL cs).Perm
            ((reachIDs m ++ reachIDs c) ++ reachIDsL cs) :=
          (reachIDs_insBefore m tid c hnc hm1 hcid).append_right _
        rw [List.append_assoc] at hp
        exact hp
      · have hnotc : tid ∉ reachIDs c := fun hc => hdisj hc hm2
        rw [insBefore_no_occ m tid c hnotc]
        have hp : (reachIDs c ++ reachIDsL (insBeforeL m tid cs)).Perm
            (reachIDs c ++ (reachIDs m ++ reachIDsL cs)) :=
          (reachIDsL_insBefore m tid cs hncs hm2).append_left _
        exact hp.trans (perm_swap_append _ _ _)
end

mutual
theorem reachIDs_appendAt (m : XMLNode) (tid : String) :
    ∀ n : XMLNode, (reachIDs n).Nodup → tid ∈ reachIDs n →
      (reachIDs (appendAt m tid n)).Perm (reachIDs m ++ reachIDs n)
  | .mk t i a tx cs, hnd, hmem => by
    rw [reachIDs] at hnd hmem ⊢
    rw [appendAt]
    by_cases hi : i = tid
    · rw [if_pos hi]
      simp only [reachIDs, reachIDsL_append, reachIDsL, List.append_nil]
      have h1 : (i :: (reachIDsL cs ++ reachIDs m)).Perm
          (i :: (reachIDs m ++ reachIDsL cs)) :=
        (List.perm_append_comm).cons i
      exact h1.trans List.perm_middle.symm
    · rw [if_neg hi, reachIDs]
      have hmem2 : tid ∈ reachIDsL cs := by
        rcases List.mem_cons.mp hmem with h | h
        · exact absurd h.symm hi
        · exact h
      have hperm := reachIDsL_appendAt m tid cs hnd.of_cons hmem2
      exact (hperm.cons i).trans List.perm_middle.symm
theorem reachIDsL_appendAt (m : XMLNode) (tid : String) :
    ∀ cs : XMLNodes, (reachIDsL cs).Nodup → tid ∈ reachIDsL cs →
      (reachIDsL (appendAtL m tid cs)).Perm (reachIDs m ++ reachIDsL cs)
  | .nil, _, hmem => absurd hmem (by simp [reachIDsL])
  | .cons c cs, hnd, hmem => by
    rw [reachIDsL] at hnd hmem
    rw [appendAtL]
    simp only [reachIDsL]
    obtain ⟨hnc, hncs, hdisj⟩ := List.nodup_append.mp hnd
    rcases List.mem_append.mp hmem with hm1 | hm2
    · have hnotcs : tid ∉ reachIDsL cs := fun hc => hdisj hm1 hc
      rw [appendAtL_no_occ m tid cs hnotcs]
      have hp : (reachIDs (appendAt m tid c) ++ reachIDsL cs).Perm
          ((reachIDs m ++ reachIDs c) ++ reachIDsL cs) :=
        (reachIDs_appendAt m tid c hnc hm1).append_right _
      rw [List.append_assoc] at hp
      exact hp
    · have hnotc : tid ∉ reachIDs c := fun hc => hdisj hc hm2
      rw [appendAt_no_occ m tid c hnotc]
      have hp : (reachIDs c ++ reachIDsL (appendAtL m tid cs)).Perm
          (reachIDs c ++ (reachIDs m ++ reachIDsL cs)) :=
        (reachIDsL_appendAt m tid cs hncs hm2).append_left _
      exact hp.trans (perm_swap_append _ _ _)
end

mutual
theorem reachIDs_editIDT (oldID newID : String) :
    ∀ n : XMLNode, (reachIDs n).Nodup → oldID ∈ reachIDs n →
      ∃ l1 l2, reachIDs n = l1 ++ oldID :: l2 ∧
        reachIDs (editIDT oldID newID n) = l1 ++ newID :: l2
  | .mk t i a tx cs, hnd, hmem => by
    rw [editIDT]
    by_cases hi : i = oldID
    · rw [if_pos hi]
      refine ⟨[], reachIDsL cs, ?_, ?_⟩
      · rw [reachIDs, hi]
        rfl
      · rfl
    · rw [if_neg hi]
      rw [reachIDs] at hnd hmem
      have hmem2 : oldID ∈ reachIDsL cs := by
        rcases List.mem_cons.mp hmem with h | h
        · exact absurd h.symm hi
        · exact h
      obtain ⟨l1, l2, he1, he2⟩ := reachIDsL_editIDT oldID newID cs hnd.of_cons hmem2
      refine ⟨i :: l1, l2, ?_, ?_⟩
      · rw [reachIDs, he1]
        rfl
      · rw [reachIDs, he2]
        rfl
theorem reachIDsL_editIDT (oldID newID : String) :
    ∀ cs : XMLNodes, (reachIDsL cs).Nodup → oldID ∈ reachIDsL cs →
      ∃ l1 l2, reachIDsL cs = l1 ++ oldID :: l2 ∧
        reachIDsL (editIDTL oldID newID cs) = l1 ++ newID :: l2
  | .nil, _, hmem => absurd hmem (by simp [reachIDsL])
  | .cons c cs, hnd, hmem => by
    rw [reachIDsL] at hnd hmem ⊢
    rw [editIDTL]
    simp only [reachIDsL]
    obtain ⟨hnc, hncs, hdisj⟩ := List.nodup_append.mp hnd
    rcases List.mem_append.mp hmem with hm1 | hm2
    · have hnotcs : oldID ∉ reachIDsL cs := fun hc => hdisj hm1 hc
      rw [editIDTL_no_occ oldID newID cs hnotcs]
      obtain ⟨l1, l2, he1, he2⟩ := reachIDs_editIDT oldID newID c hnc hm1
      refine ⟨l1, l2 ++ reachIDsL cs, ?_, ?_⟩
      · rw [he1]
        simp [List.append_assoc]
      · rw [he2]
        simp [List.append_assoc]
    · have hnotc : oldID ∉ reachIDs c := fun hc => hdisj hc hm2
      rw [editIDT_no_occ oldID newID c hnotc]
      obtain ⟨l1, l2, he1, he2⟩ := reachIDsL_editIDT oldID newID cs hncs hm2
      refine ⟨reachIDs c ++ l1, l2, ?_, ?_⟩
      · rw [he1]
        simp [List.append_assoc]
      · rw [he2]
        simp [List.append_assoc]
end

mutual
theorem reachIDs_delElem (tid : String) :
    ∀ n : XMLNode, (reachIDs n).Nodup → n.id ≠ tid → ∀ d : XMLNode,
      findNode tid n = some d →
      (reachIDs n).Perm (reachIDs (delElem tid n) ++ reachIDs d)
  | .mk t i a tx cs, hnd, hid, d, hfind => by
    rw [id_eq_of_mk] at hid
    rw [findNode, if_neg hid] at hfind
    rw [delElem, reachIDs, reachIDs]
    rw [reachIDs] at hnd
    have hq := reachIDsL_delElem tid cs hnd.of_cons d hfind
    simp only [List.cons_append]
    exact hq.cons i
theorem reachIDsL_delElem (tid : String) :
    ∀ cs : XMLNodes, (reachIDsL cs).Nodup → ∀ d : XMLNode,
      findNodeL tid cs = some d →
      (reachIDsL cs).Perm (reachIDsL (delElemL tid cs) ++ reachIDs d)
  | .nil, _, d, hfind => by cases hfind
  | .cons c cs, hnd, d, hfind => by
    rw [reachIDsL] at hnd ⊢
    rw [findNodeL] at hfind
    rw [delElemL]
    obtain ⟨hnc, hncs, hdisj⟩ := List.nodup_append.mp hnd
    rcases hfc : findNode tid c with _ | d1
    · rw [hfc] at hfind
      have hnotc : tid ∉ reachIDs c := by
        intro hin
        have hs := findNode_isSome c hin
        rw [hfc] at hs
        simp at hs
      have hcid : c.id ≠ tid := fun hc => hnotc (hc ▸ self_mem_reachIDs c)
      rw [if_neg hcid]
      simp only [reachIDsL]
      rw [delElem_no_occ tid c hnotc]
      have hq : (reachIDs c ++ reachIDsL cs).Perm
          (reachIDs c ++ (reachIDsL (delElemL tid cs) ++ reachIDs d)) :=
        (reachIDsL_delElem tid cs hncs d hfind).append_left _
      rw [← List.append_assoc] at hq
      exact hq
    · rw [hfc] at hfind
      have hd1 : d1 = d := by
        have h2 : (some d1 : Option XMLNode) = some d := hfind
        injection h2
      subst hd1
      have hspec := findNode_spec c hfc
      have hmemc : tid ∈ reachIDs c := by
        rw [reachIDs_eq_map]
        exact hspec.2 ▸ List.mem_map_of_mem XMLNode.id hspec.1
      by_cases hcid : c.id = tid
      · rw [if_pos hcid]
        have hdc : c = d1 := by
          cases c with
          | mk tc ic ac txc csc =>
            rw [id_eq_of_mk] at hcid
            rw [findNode, if_pos hcid] at hfc
            injection hfc with h2
        rw [← hdc]
        exact List.perm_append_comm
      · rw [if_neg hcid]
        simp only [reachIDsL]
        have hnotcs : tid ∉ reachIDsL cs := fun hc => hdisj hmemc hc
        rw [delElemL_no_occ tid cs hnotcs]
        have hp : (reachIDs c ++ reachIDsL cs).Perm
            ((reachIDs (delElem tid c) ++ reachIDs d1) ++ reachIDsL cs) :=
          (reachIDs_delElem tid c hnc hcid d1 hfc).append_right _
        have h2 : ((reachIDs (delElem tid c) ++ reachIDs d1) ++ reachIDsL cs).Perm
            ((reachIDs (delElem tid c) ++ reachIDsL cs) ++ reachIDs d1) := by
          rw [List.append_assoc, List.append_assoc]
          exact List.Perm.append_left _ List.perm_append_comm
        exact hp.trans h2
end

/-! ## Parser invariant: a successful parse yields a well-formed tree -/

/-- Ids of every node reachable from any stack frame. -/
def stackIDs : List XMLNode → List String
  | [] => []
  | n :: rest => reachIDs n ++ stackIDs rest

/-- Ids reachable from the root candidate. -/
def rootIDsOf : Option XMLNode → List String
  | none => []
  | some r => reachIDs r

/-- Frames below the top have empty trimmed text: their text was checked
when the element above them started, and cannot change while they are
not the top of the stack. -/
def BelowClean : List XMLNode → Prop
  | [] => True
  | _ :: rest => ∀ p ∈ rest, trimSpace p.text = []

/-- Loop invariant of the parser: all owned ids are pairwise distinct
and recorded in `ids`, every finished or open element satisfies the
mixed-content exclusion, and non-top frames have empty trimmed text. -/
def PInv (st : PState) : Prop :=
  (rootIDsOf st.root ++ stackIDs st.stack).Nodup ∧
  (∀ s ∈ rootIDsOf st.root ++ stackIDs st.stack, s ∈ st.ids) ∧
  (∀ n ∈ st.stack, NoMixed n) ∧
  (∀ r, st.root = some r → NoMixed r) ∧
  BelowClean st.stack

theorem pstep_inv {st st2 : PState} {t : XMLToken} (h0 : PInv st)
    (h : pstep st t = .ok st2) : PInv st2 := by
  obtain ⟨stack, root, ids⟩ := st
  obtain ⟨hnd, hsub, hnm, hrnm, hbc⟩ := h0
  simp only at hnd hsub hnm hrnm hbc
  cases t with
  | comment =>
    have h2 : PState.mk stack root ids = st2 := by injection h
    rw [← h2]
    exact ⟨hnd, hsub, hnm, hrnm, hbc⟩
  | other =>
    have h2 : PState.mk stack root ids = st2 := by injection h
    rw [← h2]
    exact ⟨hnd, hsub, hnm, hrnm, hbc⟩
  | start tag attrs =>
    rcases hstack : stack with _ | ⟨parent, rest⟩ <;> subst hstack <;>
      simp only [pstep] at h
    · split at h
      · exact absurd h (by simp)
      · split at h
        · exact absurd h (by simp)
        · rename_i hne hnotin
          have h2 : PState.mk [XMLNode.mk tag (extractID attrs) attrs [] .nil]
              root (extractID attrs :: ids) = st2 := by injection h
          rw [← h2]
          have hand : (rootIDsOf root).Nodup := by
            simpa [stackIDs] using hnd
          have hnidA : extractID attrs ∉ rootIDsOf root := fun hin =>
            hnotin (hsub _ (by simp [stackIDs, hin]))
          refine ⟨?_, ?_, ?_, ?_, ?_⟩
          · simp only [stackIDs, reachIDs, reachIDsL, List.append_nil]
            exact (List.perm_append_singleton _ _).nodup_iff.mpr
              (List.nodup_cons.mpr ⟨hnidA, hand⟩)
          · intro s hs
            rw [List.mem_cons]
            simp only [stackIDs, reachIDs, reachIDsL, List.append_nil,
              List.mem_append, List.mem_cons, List.not_mem_nil, or_false] at hs
            rcases hs with hs | hs
            · exact Or.inr (hsub s (by simp [stackIDs, hs]))
            · exact Or.inl hs
          · intro n hn
            rw [List.mem_singleton] at hn
            rw [hn]
            exact ⟨fun _ => rfl, trivial⟩
          · exact hrnm
          · intro p hp
            simp at hp
    · split at h
      · exact absurd h (by simp)
      · split at h
        · exact absurd h (by simp)
        · split at h
          · rename_i hne hnotin htxp
            have h2 : PState.mk
                (XMLNode.mk tag (extractID attrs) attrs [] .nil :: parent :: rest)
                root (extractID attrs :: ids) = st2 := by injection h
            rw [← h2]
            have hnidA : extractID attrs ∉
                rootIDsOf root ++ stackIDs (parent :: rest) := fun hin =>
              hnotin (hsub _ hin)
            refine ⟨?_, ?_, ?_, ?_, ?_⟩
            · simp only [stackIDs, reachIDs, reachIDsL, List.nil_append]
              have hperm : (rootIDsOf root ++ (extractID attrs ::
                  (reachIDs parent ++ stackIDs rest))).Perm
                  (extractID attrs ::
                    (rootIDsOf root ++ (reachIDs parent ++ stackIDs rest))) :=
                List.perm_middle
              refine hperm.nodup_iff.mpr (List.nodup_cons.mpr ⟨?_, ?_⟩)
              · intro hin
                exact hnidA (by simpa [stackIDs] using hin)
              · simpa [stackIDs] using hnd
            · intro s hs
              rw [List.mem_cons]
              simp only [stackIDs, reachIDs, reachIDsL, List.nil_append,
                List.mem_append, List.mem_cons, List.not_mem_nil, or_false] at hs
              rcases hs with hs | hs | hs
              · exact Or.inr (hsub s (by simp [stackIDs, hs]))
              · exact Or.inl hs
              · refine Or.inr (hsub s ?_)
                simp only [stackIDs, List.mem_append]
                tauto
            · intro n hn
              rcases List.mem_cons.mp hn with hn | hn
              · rw [hn]
                exact ⟨fun _ => rfl, trivial⟩
              · exact hnm n hn
            · exact hrnm
            · intro p hp
              rcases List.mem_cons.mp hp with hp | hp
              · rw [hp]
                exact htxp
              · exact hbc p hp
          · exact absurd h (by simp)
  | close =>
    rcases hstack : stack with _ | ⟨n, rest⟩
    · subst hstack
      simp only [pstep] at h
      exact absurd h (by simp)
    · subst hstack
      rcases hrest : rest with _ | ⟨p, rest2⟩
      · subst hrest
        simp only [pstep] at h
        have h2 : PState.mk [] (some n) ids = st2 := by injection h
        rw [← h2]
        refine ⟨?_, ?_, ?_, ?_, ?_⟩
        · simp only [rootIDsOf, stackIDs, List.append_nil]
          have h3 := hnd.of_append_right
          simpa [stackIDs] using h3
        · intro s hs
          simp only [rootIDsOf, stackIDs, List.append_nil] at hs
          exact hsub s (by simp [stackIDs, hs])
        · intro q hq
          simp at hq
        · intro r hr
          injection hr with hr2
          rw [← hr2]
          exact hnm n (List.mem_cons_self _ _)
        · trivial
      · subst hrest
        cases p with
        | mk tp ip ap txp csp =>
          simp only [pstep] at h
          have h2 : PState.mk (XMLNode.mk tp ip ap txp
              (csp.append (.cons n .nil)) :: rest2) root ids = st2 := by
            injection h
          rw [← h2]
          have hpermp : (reachIDs (XMLNode.mk tp ip ap txp
              (csp.append (.cons n .nil)))).Perm
              (reachIDs n ++ reachIDs (XMLNode.mk tp ip ap txp csp)) := by
            simp only [reachIDs, reachIDsL_append, reachIDsL, List.append_nil]
            have h3 : (ip :: (reachIDsL csp ++ reachIDs n)).Perm
                (ip :: (reachIDs n ++ reachIDsL csp)) :=
              (List.perm_append_comm).cons ip
            exact h3.trans List.perm_middle.symm
          have hpermAll : (rootIDsOf root ++ stackIDs
              (XMLNode.mk tp ip ap txp (csp.append (.cons n .nil)) :: rest2)).Perm
              (rootIDsOf root ++ stackIDs
                (n :: XMLNode.mk tp ip ap txp csp :: rest2)) := by
            refine List.Perm.append_left _ ?_
            simp only [stackIDs]
            have h4 : (reachIDs (XMLNode.mk tp ip ap txp (csp.append (.cons n .nil)))
                ++ stackIDs rest2).Perm
                ((reachIDs n ++ reachIDs (XMLNode.mk tp ip ap txp csp))
                  ++ stackIDs rest2) := hpermp.append_right _
            rw [List.append_assoc] at h4
            exact h4
          refine ⟨?_, ?_, ?_, ?_, ?_⟩
          · exact hpermAll.nodup_iff.mpr hnd
          · intro s hs
            exact hsub s (hpermAll.mem_iff.mp hs)
          · intro q hq
            rcases List.mem_cons.mp hq with hq | hq
            · rw [hq]
              have htxp : trimSpace txp = [] := by
                have h5 := hbc (XMLNode.mk tp ip ap txp csp) (List.mem_cons_self _ _)
                simpa [XMLNode.text] using h5
              refine ⟨fun hcon => absurd htxp hcon, ?_⟩
              refine NoMixedL_append csp _ ?_ ⟨hnm n (List.mem_cons_self _ _), trivial⟩
              have h6 := hnm (XMLNode.mk tp ip ap txp csp)
                (List.mem_cons_of_mem _ (List.mem_cons_self _ _))
              rw [NoMixed] at h6
              exact h6.2
            · exact hnm q (List.mem_cons_of_mem _ (List.mem_cons_of_mem _ hq))
          · exact hrnm
          · intro q hq
            exact hbc q (List.mem_cons_of_mem _ hq)
  | chardata data =>
    rcases hstack : stack with _ | ⟨cur, rest⟩
    · subst hstack
      simp only [pstep] at h
      have h2 : PState.mk [] root ids = st2 := by injection h
      rw [← h2]
      exact ⟨hnd, hsub, hnm, hrnm, hbc⟩
    · subst hstack
      rcases hcur : cur with ⟨tc, ic, ac, txc, csc⟩
      subst hcur
      rcases hcsc : csc with _ | ⟨cc, ccs⟩ <;> subst hcsc <;>
        simp only [pstep] at h
      · split at h
        · have h2 : PState.mk (XMLNode.mk tc ic ac txc .nil :: rest)
              root ids = st2 := by injection h
          rw [← h2]
          exact ⟨hnd, hsub, hnm, hrnm, hbc⟩
        · have h2 : PState.mk (XMLNode.mk tc ic ac
              (if trimSpace txc = [] then trimSpace data
               else txc ++ ' ' :: trimSpace data) .nil :: rest)
              root ids = st2 := by injection h
          rw [← h2]
          refine ⟨?_, ?_, ?_, ?_, ?_⟩
          · simpa only [stackIDs, reachIDs, reachIDsL] using hnd
          · intro s hs
            refine hsub s ?_
            simpa only [stackIDs, reachIDs, reachIDsL] using hs
          · intro q hq
            rcases List.mem_cons.mp hq with hq | hq
            · rw [hq]
              exact ⟨fun _ => rfl, trivial⟩
            · exact hnm q (List.mem_cons_of_mem _ hq)
          · exact hrnm
          · intro q hq
            exact hbc q hq
      · split at h
        · have h2 : PState.mk (XMLNode.mk tc ic ac txc (.cons cc ccs) :: rest)
              root ids = st2 := by injection h
          rw [← h2]
          exact ⟨hnd, hsub, hnm, hrnm, hbc⟩
        · exact absurd h (by simp)

theorem pRunFrom_inv : ∀ (ts : List XMLToken) {st st2 : PState},
    PInv st → pRunFrom st ts = .ok st2 → PInv st2
  | [], st, st2, h0, h => by
    rw [pRunFrom] at h
    injection h with h
    rw [← h]
    exact h0
  | t :: ts, st, st2, h0, h => by
    rw [pRunFrom] at h
    rcases hs : pstep st t with e | st1 <;> rw [hs] at h
    · exact Except.noConfusion h
    · exact pRunFrom_inv ts (pstep_inv h0 hs) h

theorem PInv_init : PInv ⟨[], none, []⟩ := by
  refine ⟨?_, ?_, ?_, ?_, ?_⟩ <;> simp [rootIDsOf, stackIDs, BelowClean, PInv]

/-- A successfully parsed document is a well-formed tree: its reachable
ids are pairwise distinct and it satisfies the mixed-content
exclusion. -/
theorem parseXML_good {toks : List XMLToken} {r : XMLNode}
    (h : parseXML toks = .ok r) : GoodTree r := by
  unfold parseXML at h
  split at h
  · exact Except.noConfusion h
  · rename_i st heq
    split at h
    · exact Except.noConfusion h
    · rename_i hstack
      split at h
      · exact Except.noConfusion h
      · rename_i r0 hroot
        injection h with h
        subst h
        obtain ⟨hnd, _, _, hrnm, _⟩ := pRunFrom_inv toks PInv_init heq
        constructor
        · rw [hstack, hroot] at hnd
          simpa [rootIDsOf, stackIDs] using hnd
        · exact hrnm r0 hroot

/-! ## The editor invariant is preserved by every successful operation -/

theorem xmlInsertBefore_inv {tag newID targetID : String} {text : Option Str}
    {root r : XMLNode} {index i : List String}
    (hIE : ∀ s, s ∈ index ↔ s ∈ reachIDs root) (hG : GoodTree root)
    (h : xmlInsertBefore tag newID targetID text root index = (none, r, i)) :
    (∀ s, s ∈ i ↔ s ∈ reachIDs r) ∧ GoodTree r := by
  rw [xmlInsertBefore] at h
  split at h
  · exact absurd h (by simp)
  · split at h
    · exact absurd h (by simp)
    · split at h
      · exact absurd h (by simp)
      · rename_i hnew htgt hroot
        split at h
        · exact absurd h (by simp)
        · rename_i p hfp
          split at h
          · exact absurd h (by simp)
          · have hr : insBefore (createXMLNode tag newID text) targetID root = r :=
              congrArg (fun x => x.2.1) h
            have hi : addKey index newID = i := congrArg (fun x => x.2.2) h
            subst hr
            subst hi
            have htgt2 : targetID ∈ reachIDs root := (hIE targetID).mp (not_not.mp htgt)
            have hperm := reachIDs_insBefore (createXMLNode tag newID text) targetID
              root hG.1 htgt2 hroot
            rw [reachIDs_createXMLNode] at hperm
            refine ⟨?_, ?_, ?_⟩
            · intro s
              rw [mem_addKey, hIE s, hperm.mem_iff]
              simp
            · rw [hperm.nodup_iff]
              simp only [List.singleton_append, List.nodup_cons]
              exact ⟨fun hcon => hnew ((hIE newID).mpr hcon), hG.1⟩
            · exact noMixed_insBefore _ _ (noMixed_createXMLNode _ _ _) root hG.2

theorem xmlAppendChild_inv {tag newID parentID : String} {text : Option Str}
    {root r : XMLNode} {index i : List String}
    (hIE : ∀ s, s ∈ index ↔ s ∈ reachIDs root) (hG : GoodTree root)
    (h : xmlAppendChild tag newID parentID text root index = (none, r, i)) :
    (∀ s, s ∈ i ↔ s ∈ reachIDs r) ∧ GoodTree r := by
  rw [xmlAppendChild] at h
  split at h
  · exact absurd h (by simp)
  · split at h
    · exact absurd h (by simp)
    · rename_i hnew hpar
      split at h
      · exact absurd h (by simp)
      · rename_i p hfp
        split at h
        · exact absurd h (by simp)
        · rename_i hptext
          have hr : appendAt (createXMLNode tag newID text) parentID root = r :=
            congrArg (fun x => x.2.1) h
          have hi : addKey index newID = i := congrArg (fun x => x.2.2) h
          subst hr
          subst hi
          have hpar2 : parentID ∈ reachIDs root := (hIE parentID).mp (not_not.mp hpar)
          have hperm := reachIDs_appendAt (createXMLNode tag newID text) parentID
            root hG.1 hpar2
          rw [reachIDs_createXMLNode] at hperm
          have hspec := findNode_spec root hfp
          have hside : ∀ q ∈ reachNodes root, q.id = parentID → trimSpace q.text = [] := by
            intro q hq hqid
            have hqp : q = p := unique_by_id hG.1 hq hspec.1 (by rw [hqid, hspec.2])
            rw [hqp]
            exact not_not.mp hptext
          refine ⟨?_, ?_, ?_⟩
          · intro s
            rw [mem_addKey, hIE s, hperm.mem_iff]
            simp
          · rw [hperm.nodup_iff]
            simp only [List.singleton_append, List.nodup_cons]
            exact ⟨fun hcon => hnew ((hIE newID).mpr hcon), hG.1⟩
          · exact noMixed_appendAt _ _ (noMixed_createXMLNode _ _ _) root hG.2 hside

theorem xmlEditID_inv {oldID newID : String}
    {root r : XMLNode} {index i : List String}
    (hIE : ∀ s, s ∈ index ↔ s ∈ reachIDs root) (hG : GoodTree root)
    (h : xmlEditID oldID newID root index = (none, r, i)) :
    (∀ s, s ∈ i ↔ s ∈ reachIDs r) ∧ GoodTree r := by
  rw [xmlEditID] at h
  split at h
  · exact absurd h (by simp)
  · split at h
    · exact absurd h (by simp)
    · split at h
      · exact absurd h (by simp)
      · rename_i hold hroot hnew
        have hr : editIDT oldID newID root = r := congrArg (fun x => x.2.1) h
        have hi : addKey (delKey index oldID) newID = i := congrArg (fun x => x.2.2) h
        subst hr
        subst hi
        have hold2 : oldID ∈ reachIDs root := (hIE oldID).mp (not_not.mp hold)
        obtain ⟨l1, l2, he1, he2⟩ := reachIDs_editIDT oldID newID root hG.1 hold2
        have hnew2 : newID ∉ reachIDs root := fun hc => hnew ((hIE newID).mpr hc)
        have hnd := hG.1
        rw [he1, List.nodup_middle, List.nodup_cons] at hnd
        have hnew3 : newID ∉ l1 ++ l2 := by
          intro hc
          apply hnew2
          rw [he1]
          rcases List.mem_append.mp hc with hc | hc
          · exact List.mem_append.mpr (Or.inl hc)
          · exact List.mem_append.mpr (Or.inr (List.mem_cons_of_mem _ hc))
        refine ⟨?_, ?_, ?_⟩
        · intro s
          rw [mem_addKey, mem_delKey, hIE s, he1, he2]
          constructor
          · rintro (rfl | ⟨hs, hne⟩)
            · exact List.mem_append.mpr (Or.inr (List.mem_cons_self _ _))
            · rcases List.mem_append.mp hs with hs | hs
              · exact List.mem_append.mpr (Or.inl hs)
              · rcases List.mem_cons.mp hs with rfl | hs
                · exact absurd rfl hne
                · exact List.mem_append.mpr (Or.inr (List.mem_cons_of_mem _ hs))
          · intro hs
            rcases List.mem_append.mp hs with hs | hs
            · refine Or.inr ⟨List.mem_append.mpr (Or.inl hs), ?_⟩
              intro hcon
              subst hcon
              exact hnd.1 (List.mem_append.mpr (Or.inl hs))
            · rcases List.mem_cons.mp hs with rfl | hs
              · exact Or.inl rfl
              · refine Or.inr ⟨List.mem_append.mpr
                  (Or.inr (List.mem_cons_of_mem _ hs)), ?_⟩
                intro hcon
                subst hcon
                exact hnd.1 (List.mem_append.mpr (Or.inr hs))
        · rw [he2, List.nodup_middle, List.nodup_cons]
          exact ⟨hnew3, hnd.2⟩
        · exact noMixed_editIDT _ _ root hG.2

theorem xmlEditText_inv {elementID : String} {tx : Str}
    {root r : XMLNode} {index i : List String}
    (hIE : ∀ s, s ∈ index ↔ s ∈ reachIDs root) (hG : GoodTree root)
    (h : xmlEditText elementID tx root index = (none, r, i)) :
    (∀ s, s ∈ i ↔ s ∈ reachIDs r) ∧ GoodTree r := by
  rw [xmlEditText] at h
  split at h
  · exact absurd h (by simp)
  · split at h
    · exact absurd h (by simp)
    · rename_i n hfn
      split at h
      · exact absurd h (by simp)
      · rename_i hch
        have hr : editTextT elementID tx root = r := congrArg (fun x => x.2.1) h
        have hi : index = i := congrArg (fun x => x.2.2) h
        subst hr
        subst hi
        have hspec := findNode_spec root hfn
        have hside : ∀ q ∈ reachNodes root, q.id = elementID → q.children = .nil := by
          intro q hq hqid
          have hqn : q = n := unique_by_id hG.1 hq hspec.1 (by rw [hqid, hspec.2])
          rw [hqn, hch]
        refine ⟨?_, ?_, ?_⟩
        · intro s
          rw [reachIDs_editTextT]
          exact hIE s
        · rw [reachIDs_editTextT]
          exact hG.1
        · exact noMixed_editTextT _ _ root hG.2 hside

theorem xmlDeleteElement_inv {elementID : String}
    {root r : XMLNode} {index i : List String}
    (hIE : ∀ s, s ∈ index ↔ s ∈ reachIDs root) (hG : GoodTree root)
    (h : xmlDeleteElement elementID root index = (none, r, i)) :
    (∀ s, s ∈ i ↔ s ∈ reachIDs r) ∧ GoodTree r := by
  rw [xmlDeleteElement] at h
  split at h
  · exact absurd h (by simp)
  · rename_i helem
    split at h
    · exact absurd h (by simp)
    · rename_i hroot
      split at h
      · exact absurd h (by simp)
      · rename_i n hfn
        have hr : delElem elementID root = r := congrArg (fun x => x.2.1) h
        have hi : delKeys index (reachIDs n) = i := congrArg (fun x => x.2.2) h
        subst hr
        subst hi
        have hperm := reachIDs_delElem elementID root hG.1 hroot n hfn
        have hnd2 : (reachIDs (delElem elementID root) ++ reachIDs n).Nodup :=
          hperm.nodup_iff.mp hG.1
        have hdisj := List.disjoint_of_nodup_append hnd2
        refine ⟨?_, hnd2.of_append_left, noMixed_delElem _ root hG.2⟩
        intro s
        rw [mem_delKeys, hIE s, hperm.mem_iff]
        constructor
        · rintro ⟨hs, hns⟩
          rcases List.mem_append.mp hs with hs | hs
          · exact hs
          · exact absurd hs hns
        · intro hs
          exact ⟨List.mem_append.mpr (Or.inl hs), fun hc => hdisj hs hc⟩

theorem execute_inv {e e2 : XMLEditor} {desc : String}
    {mutate : XMLNode → List String → Option XMLErr × XMLNode × List String}
    (hI : XMLInv e)
    (hbody : ∀ r i, mutate e.root e.index = (none, r, i) →
      (∀ s, s ∈ i ↔ s ∈ reachIDs r) ∧ GoodTree r)
    (h : e.execute desc mutate = (none, e2)) : XMLInv e2 := by
  obtain ⟨hIE, hG, hU, hR⟩ := hI
  rcases hm : mutate e.root e.index with ⟨err, r, i⟩
  cases err with
  | some er => simp [XMLEditor.execute, hm] at h
  | none =>
    simp only [XMLEditor.execute, hm] at h
    obtain ⟨hie2, hg2⟩ := hbody r i hm
    have he2 : ({ e with
        root := r
        index := i
        undoStack := ⟨desc, e.root, r⟩ :: e.undoStack
        redoStack := []
        modified := true } : XMLEditor) = e2 := congrArg Prod.snd h
    subst he2
    refine ⟨hie2, hg2, ?_, ?_⟩
    · intro cmd hc
      rcases List.mem_cons.mp hc with rfl | hc
      · exact ⟨hG, hg2⟩
      · exact hU cmd hc
    · intro cmd hc
      exact absurd hc (List.not_mem_nil _)

theorem xmlUndo_inv {e e2 : XMLEditor} (hI : XMLInv e)
    (h : e.Undo = (none, e2)) : XMLInv e2 := by
  obtain ⟨hIE, hG, hU, hR⟩ := hI
  rw [XMLEditor.Undo] at h
  split at h
  · exact absurd h (by simp)
  · rename_i cmd rest hstack
    have he2 : ({ e.applySnapshot cmd.before with
        undoStack := rest
        redoStack := cmd :: e.redoStack
        modified := true } : XMLEditor) = e2 := congrArg Prod.snd h
    subst he2
    have hcmd := hU cmd (by rw [hstack]; exact List.mem_cons_self _ _)
    refine ⟨?_, hcmd.1, ?_, ?_⟩
    · intro s
      exact mem_rebuildIndexKeys _ s
    · intro c hc
      exact hU c (by rw [hstack]; exact List.mem_cons_of_mem _ hc)
    · intro c hc
      rcases List.mem_cons.mp hc with rfl | hc
      · exact hcmd
      · exact hR c hc

theorem xmlRedo_inv {e e2 : XMLEditor} (hI : XMLInv e)
    (h : e.Redo = (none, e2)) : XMLInv e2 := by
  obtain ⟨hIE, hG, hU, hR⟩ := hI
  rw [XMLEditor.Redo] at h
  split at h
  · exact absurd h (by simp)
  · rename_i cmd rest hstack
    have he2 : ({ e.applySnapshot cmd.after with
        redoStack := rest
        undoStack := cmd :: e.undoStack
        modified := true } : XMLEditor) = e2 := congrArg Prod.snd h
    subst he2
    have hcmd := hR cmd (by rw [hstack]; exact List.mem_cons_self _ _)
    refine ⟨?_, hcmd.2, ?_, ?_⟩
    · intro s
      exact mem_rebuildIndexKeys _ s
    · intro c hc
      rcases List.mem_cons.mp hc with rfl | hc
      · exact hcmd
      · exact hU c hc
    · intro c hc
      exact hR c (by rw [hstack]; exact List.mem_cons_of_mem _ hc)

theorem xmlInv_step {e e2 : XMLEditor} {op : XMLOp} (hI : XMLInv e)
    (h : applyXMLOp e op = (none, e2)) : XMLInv e2 := by
  cases op with
  | insertBefore tag newID targetID text =>
    exact execute_inv hI (fun r i hm => xmlInsertBefore_inv hI.1 hI.2.1 hm) h
  | appendChild tag newID parentID text =>
    exact execute_inv hI (fun r i hm => xmlAppendChild_inv hI.1 hI.2.1 hm) h
  | editID oldID newID =>
    exact execute_inv hI (fun r i hm => xmlEditID_inv hI.1 hI.2.1 hm) h
  | editText elementID text =>
    exact execute_inv hI (fun r i hm => xmlEditText_inv hI.1 hI.2.1 hm) h
  | deleteElement elementID =>
    exact execute_inv hI (fun r i hm => xmlDeleteElement_inv hI.1 hI.2.1 hm) h
  | undo => exact xmlUndo_inv hI h
  | redo => exact xmlRedo_inv hI h

/-- Master invariant: every reachable XML editor state has an exact
index, a well-formed tree, and well-formed snapshots on both stacks. -/
theorem xreach_inv {e : XMLEditor} (h : XReach e) : XMLInv e := by
  induction h with
  | parsed path toks root hp =>
    refine ⟨?_, parseXML_good hp, ?_, ?_⟩
    · intro s
      exact mem_rebuildIndexKeys root s
    · intro c hc
      exact absurd hc (List.not_mem_nil _)
    · intro c hc
      exact absurd hc (List.not_mem_nil _)
  | step e op e2 _ happ ih => exact xmlInv_step ih happ

/-! ## Shape of `XMLEditor.execute` on success and failure -/

theorem xml_execute_ok {e e2 : XMLEditor} {desc : String}
    {mutate : XMLNode → List String → Option XMLErr × XMLNode × List String}
    (h : e.execute desc mutate = (none, e2)) :
    (mutate e.root e.index).1 = none ∧
      e2 = { e with
              root := (mutate e.root e.index).2.1
              index := (mutate e.root e.index).2.2
              undoStack :=
                ⟨desc, e.root, (mutate e.root e.index).2.1⟩ :: e.undoStack
              redoStack := []
              modified := true } := by
  rcases hm : mutate e.root e.index with ⟨err, r, i⟩
  cases err with
  | some er => simp [XMLEditor.execute, hm] at h
  | none =>
    simp only [XMLEditor.execute, hm] at h
    have h3 : ({ e with
        root := r
        index := i
        undoStack := ⟨desc, e.root, r⟩ :: e.undoStack
        redoStack := []
        modified := true } : XMLEditor) = e2 := congrArg Prod.snd h
    subst h3
    exact ⟨rfl, rfl⟩

theorem text_execute_undo_redo {e e2 : TextEditor} {op : TextOp}
    (h : applyTextOp e op = (none, e2)) :
    e2.Undo.1 = none ∧ e2.Undo.2.lines = e.lines ∧
      e2.Undo.2.redoStack.head? = some ⟨op.description, e.lines, e2.lines⟩ ∧
      e2.Undo.2.Redo.1 = none ∧ e2.Undo.2.Redo.2.lines = e2.lines := by
  obtain ⟨h1, h2⟩ := applyTextOp_ok h
  subst h2
  exact ⟨rfl, rfl, rfl, rfl, rfl⟩

theorem xml_execute_undo_redo {e e2 : XMLEditor} {desc : String}
    {mutate : XMLNode → List String → Option XMLErr × XMLNode × List String}
    (h : e.execute desc mutate = (none, e2)) :
    e2.Undo.1 = none ∧ e2.Undo.2.root = e.root ∧
      e2.Undo.2.redoStack.head? = some ⟨desc, e.root, e2.root⟩ ∧
      e2.Undo.2.Redo.1 = none ∧ e2.Undo.2.Redo.2.root = e2.root := by
  obtain ⟨h1, h2⟩ := xml_execute_ok h
  subst h2
  exact ⟨rfl, rfl, rfl, rfl, rfl⟩

theorem xml_execute_fail {e e2 : XMLEditor} {desc : String}
    {mutate : XMLNode → List String → Option XMLErr × XMLNode × List String}
    {err : XMLErr}
    (hkeep : ∀ err2 r i, mutate e.root e.index = (some err2, r, i) →
      r = e.root ∧ i = e.index)
    (h : e.execute desc mutate = (some err, e2)) : e2 = e := by
  rcases hm : mutate e.root e.index with ⟨erro, r, i⟩
  cases erro with
  | none => simp [XMLEditor.execute, hm] at h
  | some er =>
    simp only [XMLEditor.execute, hm] at h
    obtain ⟨hr, hi⟩ := hkeep er r i hm
    have he2 : ({ e with root := r, index := i } : XMLEditor) = e2 :=
      congrArg Prod.snd h
    rw [← he2, hr, hi]

theorem xmlInsertBefore_fail {tag newID targetID : String} {text : Option Str}
    {root : XMLNode} {index : List String} :
    ∀ err r i, xmlInsertBefore tag newID targetID text root index =
      (some err, r, i) → r = root ∧ i = index := by
  intro err r i h
  rw [xmlInsertBefore] at h
  repeat' split at h
  all_goals first
    | exact ⟨(congrArg (fun x => x.2.1) h).symm, (congrArg (fun x => x.2.2) h).symm⟩
    | exact absurd h (by simp)

theorem xmlAppendChild_fail {tag newID parentID : String} {text : Option Str}
    {root : XMLNode} {index : List String} :
    ∀ err r i, xmlAppendChild tag newID parentID text root index =
      (some err, r, i) → r = root ∧ i = index := by
  intro err r i h
  rw [xmlAppendChild] at h
  repeat' split at h
  all_goals first
    | exact ⟨(congrArg (fun x => x.2.1) h).symm, (congrArg (fun x => x.2.2) h).symm⟩
    | exact absurd h (by simp)

theorem xmlEditID_fail {oldID newID : String}
    {root : XMLNode} {index : List String} :
    ∀ err r i, xmlEditID oldID newID root index =
      (some err, r, i) → r = root ∧ i = index := by
  intro err r i h
  rw [xmlEditID] at h
  repeat' split at h
  all_goals first
    | exact ⟨(congrArg (fun x => x.2.1) h).symm, (congrArg (fun x => x.2.2) h).symm⟩
    | exact absurd h (by simp)

theorem xmlEditText_fail {elementID : String} {tx : Str}
    {root : XMLNode} {index : List String} :
    ∀ err r i, xmlEditText elementID tx root index =
      (some err, r, i) → r = root ∧ i = index := by
  intro err r i h
  rw [xmlEditText] at h
  repeat' split at h
  all_goals first
    | exact ⟨(congrArg (fun x => x.2.1) h).symm, (congrArg (fun x => x.2.2) h).symm⟩
    | exact absurd h (by simp)

theorem xmlDeleteElement_fail {elementID : String}
    {root : XMLNode} {index : List String} :
    ∀ err r i, xmlDeleteElement elementID root index =
      (some err, r, i) → r = root ∧ i = index := by
  intro err r i h
  rw [xmlDeleteElement] at h
  repeat' split at h
  all_goals first
    | exact ⟨(congrArg (fun x => x.2.1) h).symm, (congrArg (fun x => x.2.2) h).symm⟩
    | exact absurd h (by simp)

/-! ## Further helpers for the claim theorems -/

mutual
theorem noMixed_all : ∀ n : XMLNode, NoMixed n →
    ∀ p ∈ reachNodes n, ¬(trimSpace p.text ≠ [] ∧ p.children ≠ XMLNodes.nil)
  | .mk t i a tx cs, hn, p, hp => by
    rw [NoMixed] at hn
    rw [reachNodes, List.mem_cons] at hp
    rcases hp with rfl | hp
    · rintro ⟨htx, hch⟩
      exact hch (hn.1 htx)
    · exact noMixedL_all cs hn.2 p hp
theorem noMixedL_all : ∀ cs : XMLNodes, NoMixedL cs →
    ∀ p ∈ reachNodesL cs, ¬(trimSpace p.text ≠ [] ∧ p.children ≠ XMLNodes.nil)
  | .cons c cs, h, p, hp => by
    rw [NoMixedL] at h
    rw [reachNodesL, List.mem_append] at hp
    rcases hp with hp | hp
    · exact noMixed_all c h.1 p hp
    · exact noMixedL_all cs h.2 p hp
end

theorem findNode_self : ∀ n : XMLNode, findNode n.id n = some n
  | .mk t i a tx cs => by simp [findNode, XMLNode.id]

theorem editTextT_self : ∀ (n : XMLNode) (tx1 : Str),
    editTextT n.id tx1 n =
      XMLNode.mk n.tag n.id n.attributes tx1 n.children
  | .mk t i a tx cs, tx1 => by
    simp [editTextT, XMLNode.id, XMLNode.tag, XMLNode.attributes, XMLNode.children]

/-! ## Concrete documents used by the claim witnesses -/

/-- Token stream of `<root id="root"><item id="a"/></root>`. -/
def xmlTokensW : List XMLToken :=
  [.start "root" [("id", "root")], .start "item" [("id", "a")], .close, .close]

/-- The tree that stream parses to. -/
def xmlRootW : XMLNode :=
  .mk "root" "root" [("id", "root")] []
    (.cons (.mk "item" "a" [("id", "a")] [] .nil) .nil)

/-- Editor holding that tree. -/
def xmlEditorW : XMLEditor := NewXMLEditor "doc.xml" xmlRootW false

/-- Token stream of `<root id="root"/>`. -/
def xmlTokensW0 : List XMLToken := [.start "root" [("id", "root")], .close]

/-- The childless root that stream parses to. -/
def xmlRootW0 : XMLNode := .mk "root" "root" [("id", "root")] [] .nil

/-- Editor holding the childless root. -/
def xmlEditorW0 : XMLEditor := NewXMLEditor "w.xml" xmlRootW0 false

/-! ## Claim C2: the index is exact and ids are unique -/

/-- C2: after any sequence of successful XML buffer operations (parse,
InsertBefore, AppendChild, EditID, EditText, DeleteElement, Undo, Redo),
the id index holds exactly the ids of the nodes reachable from the root
— every reachable node is indexed under its id, no stale entries remain,
and ids are pairwise distinct across the tree. -/
theorem claim2_index_exact {e : XMLEditor} (h : XReach e) :
    (∀ s, s ∈ e.index ↔ s ∈ reachIDs e.root) ∧ (reachIDs e.root).Nodup := by
  obtain ⟨hIE, hG, _⟩ := xreach_inv h
  exact ⟨hIE, hG.1⟩

theorem claim2_witness :
    (("a" ∈ xmlEditorW.index ↔ "a" ∈ reachIDs xmlEditorW.root) ∧
      ("b" ∈ xmlEditorW.index ↔ "b" ∈ reachIDs xmlEditorW.root)) ∧
      (reachIDs xmlEditorW.root).Nodup :=
  ⟨⟨(claim2_index_exact (XReach.parsed "doc.xml" xmlTokensW xmlRootW rfl)).1 "a",
    (claim2_index_exact (XReach.parsed "doc.xml" xmlTokensW xmlRootW rfl)).1 "b"⟩,
   (claim2_index_exact (XReach.parsed "doc.xml" xmlTokensW xmlRootW rfl)).2⟩

/-! ## Claim C3: mixed-content exclusion -/

/-- C3: for every XML buffer reachable by any sequence of public
operations, no element simultaneously has non-empty whitespace-trimmed
text and a non-empty children list. -/
theorem claim3_mixed_content {e : XMLEditor} (h : XReach e) :
    ∀ p ∈ reachNodes e.root,
      ¬(trimSpace p.text ≠ [] ∧ p.children ≠ XMLNodes.nil) := by
  obtain ⟨_, hG, _⟩ := xreach_inv h
  exact noMixed_all e.root hG.2

theorem claim3_witness :
    ¬(trimSpace (XMLEditor.root xmlEditorW).text ≠ [] ∧
      (XMLEditor.root xmlEditorW).children ≠ XMLNodes.nil) :=
  claim3_mixed_content (XReach.parsed "doc.xml" xmlTokensW xmlRootW rfl)
    xmlEditorW.root (self_mem_reachNodes _)

/-! ## Claim C9: root protection does not extend to text edits -/

/-- C9: for every reachable XML buffer whose root element has no
children and every text, EditText with the root's id succeeds and
replaces the root's text, while EditID and DeleteElement reject the root
with a root-protection error and leave the editor unchanged. -/
theorem claim9_root_text_editable {e : XMLEditor} (h : XReach e)
    (hch : e.root.children = XMLNodes.nil) (tx : Str) :
    ((applyXMLOp e (.editText e.root.id tx)).1 = none ∧
      (applyXMLOp e (.editText e.root.id tx)).2.root =
        XMLNode.mk e.root.tag e.root.id e.root.attributes tx e.root.children) ∧
    (∀ newID, applyXMLOp e (.editID e.root.id newID) =
      (some .rootProtected, e)) ∧
    applyXMLOp e (.deleteElement e.root.id) = (some .rootProtected, e) := by
  have hin : e.root.id ∈ e.index := ((xreach_inv h).1 _).mpr (self_mem_reachIDs _)
  have hnn : ¬e.root.id ∉ e.index := not_not.mpr hin
  have hbody : xmlEditText e.root.id tx e.root e.index =
      (none, editTextT e.root.id tx e.root, e.index) := by
    simp only [xmlEditText, if_neg hnn, findNode_self, hch]
  have hex : applyXMLOp e (.editText e.root.id tx) =
      (none, { e with
        root := editTextT e.root.id tx e.root
        index := e.index
        undoStack :=
          ⟨"edit-text", e.root, editTextT e.root.id tx e.root⟩ :: e.undoStack
        redoStack := []
        modified := true }) := by
    simp only [applyXMLOp, XMLEditor.execute, hbody]
  refine ⟨⟨?_, ?_⟩, ?_, ?_⟩
  · rw [hex]
  · rw [hex]
    exact editTextT_self e.root tx
  · intro newID
    have hb2 : xmlEditID e.root.id newID e.root e.index =
        (some .rootProtected, e.root, e.index) := by
      rw [xmlEditID, if_neg hnn, if_pos rfl]
    simp only [applyXMLOp, XMLEditor.execute, hb2]
  · have hb3 : xmlDeleteElement e.root.id e.root e.index =
        (some .rootProtected, e.root, e.index) := by
      rw [xmlDeleteElement, if_neg hnn, if_pos rfl]
    simp only [applyXMLOp, XMLEditor.execute, hb3]

theorem claim9_witness :
    ((applyXMLOp xmlEditorW0
        (.editText (XMLEditor.root xmlEditorW0).id ['h', 'i'])).1 = none ∧
      (applyXMLOp xmlEditorW0
        (.editText (XMLEditor.root xmlEditorW0).id ['h', 'i'])).2.root =
        XMLNode.mk (XMLEditor.root xmlEditorW0).tag
          (XMLEditor.root xmlEditorW0).id
          (XMLEditor.root xmlEditorW0).attributes ['h', 'i']
          (XMLEditor.root xmlEditorW0).children) ∧
    applyXMLOp xmlEditorW0 (.editID (XMLEditor.root xmlEditorW0).id "x") =
      (some .rootProtected, xmlEditorW0) ∧
    applyXMLOp xmlEditorW0 (.deleteElement (XMLEditor.root xmlEditorW0).id) =
      (some .rootProtected, xmlEditorW0) :=
  ⟨(claim9_root_text_editable
      (XReach.parsed "w.xml" xmlTokensW0 xmlRootW0 rfl) rfl ['h', 'i']).1,
   (claim9_root_text_editable
      (XReach.parsed "w.xml" xmlTokensW0 xmlRootW0 rfl) rfl ['h', 'i']).2.1 "x",
   (claim9_root_text_editable
      (XReach.parsed "w.xml" xmlTokensW0 xmlRootW0 rfl) rfl ['h', 'i']).2.2⟩

/-! ## Claim C1: undo is an inverse of every successful mutating edit -/

/-- C1: for every text or XML buffer and every successful mutating edit,
performing the edit and then Undo restores the buffer content (the text
buffer's lines, or the XML buffer's tree) to exactly its pre-edit value
and leaves that edit on top of the redo stack; a subsequent Redo
restores exactly the post-edit content. -/
theorem claim1_undo_redo :
    (∀ (e e2 : TextEditor) (op : TextOp), applyTextOp e op = (none, e2) →
      e2.Undo.1 = none ∧ e2.Undo.2.lines = e.lines ∧
      e2.Undo.2.redoStack.head? = some ⟨op.description, e.lines, e2.lines⟩ ∧
      e2.Undo.2.Redo.1 = none ∧ e2.Undo.2.Redo.2.lines = e2.lines) ∧
    (∀ (e e2 : XMLEditor) (op : XMLOp), op.isMutating = true →
      applyXMLOp e op = (none, e2) →
      e2.Undo.1 = none ∧ e2.Undo.2.root = e.root ∧
      e2.Undo.2.redoStack.head? = some ⟨op.description, e.root, e2.root⟩ ∧
      e2.Undo.2.Redo.1 = none ∧ e2.Undo.2.Redo.2.root = e2.root) := by
  constructor
  · intro e e2 op h
    exact text_execute_undo_redo h
  · intro e e2 op hmut h
    cases op with
    | insertBefore tag newID targetID text => exact xml_execute_undo_redo h
    | appendChild tag newID parentID text => exact xml_execute_undo_redo h
    | editID oldID newID => exact xml_execute_undo_redo h
    | editText elementID text => exact xml_execute_undo_redo h
    | deleteElement elementID => exact xml_execute_undo_redo h
    | undo => simp [XMLOp.isMutating] at hmut
    | redo => simp [XMLOp.isMutating] at hmut

/-- Concrete text buffer for the witnesses. -/
def textW : TextEditor := NewTextEditor "a.txt" [['a', 'b']] false

/-- The buffer after a successful append. -/
def textW2 : TextEditor := (applyTextOp textW (.append ['x'])).2

/-- The XML buffer after a successful child append. -/
def xmlW2 : XMLEditor :=
  (applyXMLOp xmlEditorW0 (.appendChild "item" "c1" "root" none)).2

theorem claim1_witness :
    (textW2.Undo.1 = none ∧ textW2.Undo.2.lines = textW.lines ∧
      textW2.Undo.2.redoStack.head? =
        some ⟨(TextOp.append ['x']).description, textW.lines, textW2.lines⟩ ∧
      textW2.Undo.2.Redo.1 = none ∧ textW2.Undo.2.Redo.2.lines = textW2.lines) ∧
    (xmlW2.Undo.1 = none ∧ xmlW2.Undo.2.root = xmlEditorW0.root ∧
      xmlW2.Undo.2.redoStack.head? =
        some ⟨(XMLOp.appendChild "item" "c1" "root" none).description,
          xmlEditorW0.root, xmlW2.root⟩ ∧
      xmlW2.Undo.2.Redo.1 = none ∧ xmlW2.Undo.2.Redo.2.root = xmlW2.root) :=
  ⟨claim1_undo_redo.1 textW textW2 (.append ['x']) rfl,
   claim1_undo_redo.2 xmlEditorW0 xmlW2
     (.appendChild "item" "c1" "root" none) rfl rfl⟩

/-! ## Claim C4: failed operations leave the buffer unchanged -/

/-- C4: whenever a buffer operation fails its precondition — text
Append/Insert/Delete/Replace (Replace's delete phase succeeds only if
the insert phase then also succeeds), or XML InsertBefore, AppendChild,
EditID, EditText, DeleteElement — it returns a typed error and the
buffer is left completely unchanged: lines or tree, the XML id index,
the modified flag and both history stacks keep their prior values, and
nothing is pushed onto the undo stack. -/
theorem claim4_fail_unchanged :
    (∀ (e e2 : TextEditor) (op : TextOp) (err : TextErr),
      applyTextOp e op = (some err, e2) → e2 = e) ∧
    (∀ (e e2 : XMLEditor) (op : XMLOp) (err : XMLErr), op.isMutating = true →
      applyXMLOp e op = (some err, e2) → e2 = e) := by
  constructor
  · intro e e2 op err h
    exact applyTextOp_fail h
  · intro e e2 op err hmut h
    cases op with
    | insertBefore tag newID targetID text =>
      exact xml_execute_fail xmlInsertBefore_fail h
    | appendChild tag newID parentID text =>
      exact xml_execute_fail xmlAppendChild_fail h
    | editID oldID newID => exact xml_execute_fail xmlEditID_fail h
    | editText elementID text => exact xml_execute_fail xmlEditText_fail h
    | deleteElement elementID => exact xml_execute_fail xmlDeleteElement_fail h
    | undo => simp [XMLOp.isMutating] at hmut
    | redo => simp [XMLOp.isMutating] at hmut

theorem claim4_witness :
    (applyTextOp textW (.insert 5 1 ['x'])).2 = textW ∧
    (applyXMLOp xmlEditorW0 (.editID "nope" "x")).2 = xmlEditorW0 :=
  ⟨claim4_fail_unchanged.1 textW _ (.insert 5 1 ['x']) .lineOutOfRange rfl,
   claim4_fail_unchanged.2 xmlEditorW0 _ (.editID "nope" "x") .notFound rfl rfl⟩

/-! ## Workspace (src/src/workspace/workspace.go)

The workspace coordinates open editors.  For the history/active
invariant only the key set of `editors`, the `active` path and the
`history` list matter, so the embedding keeps exactly those.  Paths are
pre-resolved (`resolvePath` returns an absolute, non-empty path; its
non-emptiness is the side condition `WSOp.resolved`), and the outcomes
of the disk and user interactions (stat/read/parse in `Load`, the
exists-check and kind dispatch in `Init`, the save prompt in `Close`)
enter as boolean parameters, since only success or failure of those
steps is visible to the workspace state. -/

structure Workspace where
  editors : List String
  active : String
  history : List String
deriving DecidableEq

/-- `NewWorkspace`: no editors, no active file, empty history. -/
def NewWorkspace : Workspace := ⟨[], "", []⟩

/-- `removeFromHistory`: drop every occurrence of the path. -/
def Workspace.removeFromHistory (w : Workspace) (path : String) : Workspace :=
  { w with history := w.history.filter (fun item => item ≠ path) }

/-- `touchHistory`: move the path to the front of the history. -/
def Workspace.touchHistory (w : Workspace) (path : String) : Workspace :=
  if path = "" then w
  else { w with history := path :: (w.removeFromHistory path).history }

/-- `setActive`: record the new active path and touch the history
(the source guards `path != ""`; written here with the positive
test first). -/
def Workspace.setActive (w : Workspace) (path : String) : Workspace :=
  if w.active = path then w
  else if path = "" then { w with active := path }
  else Workspace.touchHistory { w with active := path } path

/-- Typed workspace failures (the source returns `error` values). -/
inductive WSErr where
  | noActive
  | notOpen
  | alreadyExists
  | diskError
  | confirmFailed
deriving DecidableEq

/-- `Workspace.Load`: an already-open file is only activated; otherwise
the file is read from disk (outcome `diskOK`) and registered. -/
def wsLoad (w : Workspace) (abs : String) (diskOK : Bool) :
    Option WSErr × Workspace :=
  if abs ∈ w.editors then (none, w.setActive abs)
  else if diskOK then
    (none, Workspace.setActive { w with editors := addKey w.editors abs } abs)
  else (some .diskError, w)

/-- `Workspace.Init`: fails if the file exists on disk or the kind is
unknown; otherwise registers a fresh buffer (no already-open check, as
in the source: the map assignment overwrites). -/
def wsInit (w : Workspace) (abs : String) (fileExists kindOK : Bool) :
    Option WSErr × Workspace :=
  if fileExists then (some .alreadyExists, w)
  else if kindOK then
    (none, Workspace.setActive { w with editors := addKey w.editors abs } abs)
  else (some .noActive, w)

/-- `Workspace.Edit`: activates an open editor. -/
def wsEdit (w : Workspace) (abs : String) : Option WSErr × Workspace :=
  if abs ∈ w.editors then (none, w.setActive abs) else (some .notOpen, w)

/-- Target resolution of `Workspace.Close`: an empty argument means the
active file. -/
def wsCloseTarget (w : Workspace) (path : String) : String :=
  if path = "" then w.active else path

/-- The mutating tail of `Workspace.Close`: delete the editor, drop the
path from the history, and activate the most recent remaining entry
(or the unchanged `active` when some other file was closed). -/
def wsCloseCommit (w : Workspace) (target : String) : Workspace :=
  Workspace.setActive
    (Workspace.removeFromHistory { w with editors := delKey w.editors target } target)
    (if w.active = target
     then (Workspace.removeFromHistory
        { w with editors := delKey w.editors target } target).history.headD ""
     else w.active)

/-- `Workspace.Close`: errors (no active file, not open, failed save
prompt) leave the workspace unchanged; `saveOK` is the outcome of the
modified-buffer prompt and save. -/
def wsClose (w : Workspace) (path : String) (saveOK : Bool) :
    Option WSErr × Workspace :=
  if wsCloseTarget w path = "" then (some .noActive, w)
  else if wsCloseTarget w path ∈ w.editors then
    if saveOK then (none, wsCloseCommit w (wsCloseTarget w path))
    else (some .confirmFailed, w)
  else (some .notOpen, w)

/-- The four workspace operations of the claim. -/
inductive WSOp where
  | load (abs : String) (diskOK : Bool)
  | init (abs : String) (fileExists kindOK : Bool)
  | edit (abs : String)
  | close (path : String) (saveOK : Bool)

/-- Side condition: `resolvePath` output is an absolute, hence
non-empty, path. -/
def WSOp.resolved : WSOp → Prop
  | .load abs _ => abs ≠ ""
  | .init abs _ _ => abs ≠ ""
  | .edit abs => abs ≠ ""
  | .close _ _ => True

/-- Dispatch of the workspace operations. -/
def applyWSOp (w : Workspace) : WSOp → Option WSErr × Workspace
  | .load abs diskOK => wsLoad w abs diskOK
  | .init abs fileExists kindOK => wsInit w abs fileExists kindOK
  | .edit abs => wsEdit w abs
  | .close path saveOK => wsClose w path saveOK

/-- Workspace states reachable from `NewWorkspace` by any sequence of
Load/Init/Edit/Close calls, successful or failed. -/
inductive WReach : Workspace → Prop where
  | base : WReach NewWorkspace
  | step (w : Workspace) (op : WSOp) (err : Option WSErr) (w2 : Workspace) :
      WReach w → op.resolved → applyWSOp w op = (err, w2) → WReach w2

/-- The workspace invariant: duplicate-free history matching the open
set, no empty path open, and a non-empty active file that is open and
most recent. -/
def WSInv (w : Workspace) : Prop :=
  w.history.Nodup ∧
  (∀ p, p ∈ w.history ↔ p ∈ w.editors) ∧
  "" ∉ w.editors ∧
  (w.active ≠ "" → w.active ∈ w.editors ∧ w.history.head? = some w.active)

theorem mem_touch {l : List String} {q p : String} :
    p ∈ q :: l.filter (fun item => item ≠ q) ↔ p = q ∨ p ∈ l := by
  simp only [List.mem_cons, List.mem_filter]
  constructor
  · rintro (rfl | ⟨hp, _⟩)
    · exact Or.inl rfl
    · exact Or.inr hp
  · rintro (rfl | hp)
    · exact Or.inl rfl
    · by_cases hq : p = q
      · exact Or.inl hq
      · refine Or.inr ⟨hp, ?_⟩
        simpa using hq

theorem nodup_touch {l : List String} (q : String) (hnd : l.Nodup) :
    (q :: l.filter (fun item => item ≠ q)).Nodup := by
  rw [List.nodup_cons]
  refine ⟨?_, hnd.filter _⟩
  intro hc
  have h2 := List.of_mem_filter hc
  simp at h2

theorem setActive_inv : ∀ (w : Workspace), WSInv w → ∀ {abs : String},
    abs ∈ w.editors → WSInv (w.setActive abs)
  | ⟨eds, act, hist⟩, ⟨hnd, hset, hnil, hact⟩, abs, habs => by
    simp only at hnd hset hnil hact habs
    have habsne : abs ≠ "" := fun hc => hnil (hc ▸ habs)
    simp only [Workspace.setActive]
    split
    · exact ⟨hnd, hset, hnil, hact⟩
    · rename_i hne
      simp only [Workspace.touchHistory, if_neg habsne, Workspace.removeFromHistory]
      refine ⟨nodup_touch abs hnd, ?_, hnil, ?_⟩
      · intro p
        refine (mem_touch).trans ?_
        constructor
        · rintro (rfl | hp)
          · exact habs
          · exact (hset p).mp hp
        · intro hp
          by_cases hq : p = abs
          · exact Or.inl hq
          · exact Or.inr ((hset p).mpr hp)
      · intro _
        exact ⟨habs, rfl⟩

theorem openEditor_inv : ∀ (w : Workspace), WSInv w → ∀ {abs : String},
    abs ≠ "" →
    WSInv (Workspace.setActive { w with editors := addKey w.editors abs } abs)
  | ⟨eds, act, hist⟩, ⟨hnd, hset, hnil, hact⟩, abs, habsne => by
    simp only at hnd hset hnil hact
    simp only [Workspace.setActive]
    split
    · rename_i heq
      have hactne : act ≠ "" := by rw [heq]; exact habsne
      have hmem : abs ∈ eds := by
        have h2 := (hact hactne).1
        rw [heq] at h2
        exact h2
      have haddk : addKey eds abs = eds := by rw [addKey, if_pos hmem]
      rw [haddk]
      exact ⟨hnd, hset, hnil, hact⟩
    · rename_i hne
      simp only [Workspace.touchHistory, if_neg habsne, Workspace.removeFromHistory]
      refine ⟨nodup_touch abs hnd, ?_, ?_, ?_⟩
      · intro p
        refine (mem_touch).trans ?_
        rw [mem_addKey]
        constructor
        · rintro (rfl | hp)
          · exact Or.inl rfl
          · exact Or.inr ((hset p).mp hp)
        · rintro (rfl | hp)
          · exact Or.inl rfl
          · by_cases hq : p = abs
            · exact Or.inl hq
            · exact Or.inr ((hset p).mpr hp)
      · intro hc
        rcases mem_addKey.mp hc with rfl | hc2
        · exact habsne rfl
        · exact hnil hc2
      · intro _
        exact ⟨mem_addKey.mpr (Or.inl rfl), rfl⟩

theorem wsCloseCommit_inv : ∀ (w : Workspace), WSInv w → ∀ {t : String},
    t ∈ w.editors → WSInv (wsCloseCommit w t)
  | ⟨eds, act, hist⟩, ⟨hnd, hset, hnil, hact⟩, t, hmem => by
    simp only at hnd hset hnil hact hmem
    have htne : t ≠ "" := fun hc => hnil (hc ▸ hmem)
    have hfil : ∀ p, p ∈ hist.filter (fun item => item ≠ t) ↔ p ∈ eds ∧ p ≠ t := by
      intro p
      simp only [List.mem_filter, decide_eq_true_eq]
      exact and_congr_left (fun _ => hset p)
    simp only [wsCloseCommit, Workspace.removeFromHistory]
    split
    · rename_i hat
      rcases hh : hist.filter (fun item => item ≠ t) with _ | ⟨q, rest⟩
      · simp only [List.headD_nil, Workspace.setActive]
        split
        · rename_i h0
          exact absurd (hat.symm.trans h0) htne
        · simp only [if_true]
          refine ⟨List.nodup_nil, ?_, ?_, ?_⟩
          · intro p
            constructor
            · intro hc
              exact absurd hc (List.not_mem_nil _)
            · intro hc
              have h3 := (hfil p).mpr (mem_delKey.mp hc)
              rw [hh] at h3
              exact absurd h3 (List.not_mem_nil _)
          · intro hc
            exact hnil (mem_delKey.mp hc).1
          · intro hfalse
            exact absurd rfl hfalse
      · have hq : q ∈ eds ∧ q ≠ t := (hfil q).mp (hh ▸ List.mem_cons_self _ _)
        have hqne : q ≠ "" := fun hc => hnil (hc ▸ hq.1)
        simp only [List.headD_cons, Workspace.setActive]
        have hne2 : ¬act = q := fun hc => hq.2 (hc.symm.trans hat)
        rw [if_neg hne2, if_neg hqne]
        simp only [Workspace.touchHistory, if_neg hqne, Workspace.removeFromHistory]
        have hndf : (q :: rest).Nodup := hh ▸ hnd.filter _
        refine ⟨nodup_touch q hndf, ?_, ?_, ?_⟩
        · intro p
          refine (mem_touch).trans ?_
          constructor
          · rintro (rfl | hp)
            · exact mem_delKey.mpr ⟨hq.1, hq.2⟩
            · have h3 : p ∈ hist.filter (fun item => item ≠ t) := hh ▸ hp
              exact mem_delKey.mpr ((hfil p).mp h3)
          · intro hp
            have h3 := (hfil p).mpr (mem_delKey.mp hp)
            rw [hh] at h3
            exact Or.inr h3
        · intro hc
          exact hnil (mem_delKey.mp hc).1
        · intro _
          exact ⟨mem_delKey.mpr ⟨hq.1, hq.2⟩, rfl⟩
    · rename_i hat
      simp only [Workspace.setActive]
      simp only [if_true]
      refine ⟨hnd.filter _, ?_, ?_, ?_⟩
      · intro p
        exact (hfil p).trans (mem_delKey).symm
      · intro hc
        exact hnil (mem_delKey.mp hc).1
      · intro hane
        obtain ⟨ha1, ha2⟩ := hact hane
        refine ⟨mem_delKey.mpr ⟨ha1, hat⟩, ?_⟩
        rcases hist with _ | ⟨h0, tl⟩
        · exact absurd ha2 (by simp)
        · have h0eq : h0 = act := by simpa using ha2
          subst h0eq
          simp [List.filter_cons, hat]

theorem wsInv_step {w w2 : Workspace} {op : WSOp} {err : Option WSErr}
    (hI : WSInv w) (hres : op.resolved) (h : applyWSOp w op = (err, w2)) :
    WSInv w2 := by
  cases op with
  | load abs diskOK =>
    simp only [applyWSOp, wsLoad] at h
    split at h
    · rename_i hmem
      have hw2 : w.setActive abs = w2 := congrArg Prod.snd h
      rw [← hw2]
      exact setActive_inv w hI hmem
    · split at h
      · have hw2 : Workspace.setActive
            { w with editors := addKey w.editors abs } abs = w2 :=
          congrArg Prod.snd h
        rw [← hw2]
        exact openEditor_inv w hI hres
      · have hw2 : w = w2 := congrArg Prod.snd h
        rw [← hw2]
        exact hI
  | init abs fileExists kindOK =>
    simp only [applyWSOp, wsInit] at h
    split at h
    · have hw2 : w = w2 := congrArg Prod.snd h
      rw [← hw2]
      exact hI
    · split at h
      · have hw2 : Workspace.setActive
            { w with editors := addKey w.editors abs } abs = w2 :=
          congrArg Prod.snd h
        rw [← hw2]
        exact openEditor_inv w hI hres
      · have hw2 : w = w2 := congrArg Prod.snd h
        rw [← hw2]
        exact hI
  | edit abs =>
    simp only [applyWSOp, wsEdit] at h
    split at h
    · rename_i hmem
      have hw2 : w.setActive abs = w2 := congrArg Prod.snd h
      rw [← hw2]
      exact setActive_inv w hI hmem
    · have hw2 : w = w2 := congrArg Prod.snd h
      rw [← hw2]
      exact hI
  | close path saveOK =>
    simp only [applyWSOp, wsClose] at h
    split at h
    · have hw2 : w = w2 := congrArg Prod.snd h
      rw [← hw2]
      exact hI
    · split at h
      · rename_i hTmem
        split at h
        · have hw2 : wsCloseCommit w (wsCloseTarget w path) = w2 :=
            congrArg Prod.snd h
          rw [← hw2]
          exact wsCloseCommit_inv w hI hTmem
        · have hw2 : w = w2 := congrArg Prod.snd h
          rw [← hw2]
          exact hI
      · have hw2 : w = w2 := congrArg Prod.snd h
        rw [← hw2]
        exact hI

/-- Master workspace invariant over all reachable states. -/
theorem wreach_inv {w : Workspace} (h : WReach w) : WSInv w := by
  induction h with
  | base =>
    refine ⟨List.nodup_nil, ?_, ?_, ?_⟩
    · intro p
      simp [NewWorkspace]
    · simp [NewWorkspace]
    · intro hc
      exact absurd rfl hc
  | step w op err w2 _ hres happ ih => exact wsInv_step ih hres happ

/-! ## Claim C6: the history is exactly the open set -/

/-- C6: after any sequence of Load, Init, Edit and Close operations, the
history contains exactly the set of currently open editor paths with
each path appearing at most once, and whenever `active` is non-empty it
is one of the open editors and equals the history head. -/
theorem claim6_history_exact {w : Workspace} (h : WReach w) :
    w.history.Nodup ∧ (∀ p, p ∈ w.history ↔ p ∈ w.editors) ∧
      (w.active ≠ "" → w.active ∈ w.editors ∧ w.history.head? = some w.active) := by
  obtain ⟨h1, h2, _, h4⟩ := wreach_inv h
  exact ⟨h1, h2, h4⟩

/-- The workspace after loading `/a.txt` and `/b.txt` and closing
`/a.txt`. -/
def wsW1 : Workspace :=
  (wsClose (wsLoad (wsLoad NewWorkspace "/a.txt" true).2 "/b.txt" true).2
    "/a.txt" true).2

theorem claim6_witness :
    wsW1.history.Nodup ∧
      ("/b.txt" ∈ wsW1.history ↔ "/b.txt" ∈ wsW1.editors) ∧
      ("/a.txt" ∈ wsW1.history ↔ "/a.txt" ∈ wsW1.editors) ∧
      (wsW1.active ∈ wsW1.editors ∧ wsW1.history.head? = some wsW1.active) :=
  ⟨(claim6_history_exact (WReach.step _ (.close "/a.txt" true) none wsW1
      (WReach.step _ (.load "/b.txt" true) none _
        (WReach.step _ (.load "/a.txt" true) none _ WReach.base
          (show ("/a.txt" : String) ≠ "" by decide) rfl)
        (show ("/b.txt" : String) ≠ "" by decide) rfl)
      trivial rfl)).1,
   (claim6_history_exact (WReach.step _ (.close "/a.txt" true) none wsW1
      (WReach.step _ (.load "/b.txt" true) none _
        (WReach.step _ (.load "/a.txt" true) none _ WReach.base
          (show ("/a.txt" : String) ≠ "" by decide) rfl)
        (show ("/b.txt" : String) ≠ "" by decide) rfl)
      trivial rfl)).2.1 "/b.txt",
   (claim6_history_exact (WReach.step _ (.close "/a.txt" true) none wsW1
      (WReach.step _ (.load "/b.txt" true) none _
        (WReach.step _ (.load "/a.txt" true) none _ WReach.base
          (show ("/a.txt" : String) ≠ "" by decide) rfl)
        (show ("/b.txt" : String) ≠ "" by decide) rfl)
      trivial rfl)).2.1 "/a.txt",
   (claim6_history_exact (WReach.step _ (.close "/a.txt" true) none wsW1
      (WReach.step _ (.load "/b.txt" true) none _
        (WReach.step _ (.load "/a.txt" true) none _ WReach.base
          (show ("/a.txt" : String) ≠ "" by decide) rfl)
        (show ("/b.txt" : String) ≠ "" by decide) rfl)
      trivial rfl)).2.2 (by decide)⟩

/-! ## Logging manager (src/src/logging/manager.go)

For the session-marker claim only the `enabled` and `sessionStarted`
key sets and the lines appended to each log file matter.  Paths are
pre-resolved (`filepath.Abs`), file-append outcomes enter as a boolean
parameter, and each operation reports the list of `(path, line)` pairs
it appended (a failed append writes nothing). -/

/-- A line appended to a log file: the per-process session marker or a
command record. -/
inductive LogLine where
  | sessionStart
  | command (raw : String)
deriving DecidableEq

/-- The manager state (Go struct `Manager`): key sets of the two maps. -/
structure LogManager where
  enabled : List String
  sessionStarted : List String
deriving DecidableEq

/-- `NewManager`: both maps empty. -/
def NewLogManager : LogManager := ⟨[], []⟩

/-- `Manager.Enable`: mark the path enabled; if no session was started
for it yet, append one session-start line, and record the start only
when the append succeeded. -/
def LogManager.EnableStep (m : LogManager) (abs : String) (appendOK : Bool) :
    LogManager × List (String × LogLine) :=
  if abs ∈ m.sessionStarted then ({ m with enabled := addKey m.enabled abs }, [])
  else if appendOK then
    ({ enabled := addKey m.enabled abs,
       sessionStarted := addKey m.sessionStarted abs },
     [(abs, .sessionStart)])
  else ({ m with enabled := addKey m.enabled abs }, [])

/-- `Manager.Disable`: drop the path from `enabled` only. -/
def LogManager.DisableStep (m : LogManager) (abs : String) : LogManager :=
  { m with enabled := delKey m.enabled abs }

/-- `Manager.Handle`: append a command record when the event carries a
file with logging enabled. -/
def LogManager.HandleStep (m : LogManager) (file raw : String)
    (appendOK : Bool) : LogManager × List (String × LogLine) :=
  if file = "" then (m, [])
  else if file ∈ m.enabled then
    (m, if appendOK then [(file, .command raw)] else [])
  else (m, [])

/-- The logger operations of one process lifetime. -/
inductive LogOp where
  | enable (abs : String) (appendOK : Bool)
  | disable (abs : String)
  | handle (file raw : String) (appendOK : Bool)

/-- Dispatch of the logger operations. -/
def applyLogOp (m : LogManager) : LogOp → LogManager × List (String × LogLine)
  | .enable abs ok => m.EnableStep abs ok
  | .disable abs => (m.DisableStep abs, [])
  | .handle file raw ok => m.HandleStep file raw ok

/-- A whole process run: final manager state and every line appended,
in order. -/
def runLog : LogManager → List LogOp → LogManager × List (String × LogLine)
  | m, [] => (m, [])
  | m, op :: ops =>
    ((runLog (applyLogOp m op).1 ops).1,
     (applyLogOp m op).2 ++ (runLog (applyLogOp m op).1 ops).2)

/-- Number of session-start lines written to one path's log file. -/
def sessionCount (path : String) (writes : List (String × LogLine)) : Nat :=
  writes.countP (fun wl => wl.1 = path ∧ wl.2 = LogLine.sessionStart)

theorem applyLogOp_session (path : String) (m : LogManager) (op : LogOp) :
    sessionCount path (applyLogOp m op).2 =
      ((if path ∈ (applyLogOp m op).1.sessionStarted then 1 else 0) -
        (if path ∈ m.sessionStarted then 1 else 0)) ∧
      (path ∈ m.sessionStarted → path ∈ (applyLogOp m op).1.sessionStarted) := by
  cases op with
  | enable abs ok =>
    simp only [applyLogOp, LogManager.EnableStep]
    split
    · rename_i hmem
      simp [sessionCount]
    · rename_i hmem
      split
      · by_cases hp : path = abs
        · subst hp
          simp [sessionCount, List.countP_cons, mem_addKey, hmem]
        · refine ⟨?_, fun hs => mem_addKey.mpr (Or.inr hs)⟩
          have hp2 : ¬abs = path := fun hc => hp hc.symm
          have hmem2 : (path ∈ addKey m.sessionStarted abs) ↔
              path ∈ m.sessionStarted := by
            rw [mem_addKey]
            simp [hp]
          simp only [hmem2]
          simp [sessionCount, List.countP_cons, hp2, Nat.sub_self]
      · simp [sessionCount]
  | disable abs => simp [applyLogOp, sessionCount, LogManager.DisableStep]
  | handle file raw ok =>
    simp only [applyLogOp, LogManager.HandleStep]
    split
    · simp [sessionCount]
    · split
      · split
        · simp [sessionCount, List.countP_cons]
        · simp [sessionCount]
      · simp [sessionCount]

theorem runLog_session (path : String) : ∀ (ops : List LogOp) (m : LogManager),
    sessionCount path (runLog m ops).2 =
      ((if path ∈ (runLog m ops).1.sessionStarted then 1 else 0) -
        (if path ∈ m.sessionStarted then 1 else 0)) ∧
      (path ∈ m.sessionStarted → path ∈ (runLog m ops).1.sessionStarted)
  | [], m => by simp [runLog, sessionCount]
  | op :: ops, m => by
    rw [runLog]
    simp only
    obtain ⟨h1, h2⟩ := applyLogOp_session path m op
    obtain ⟨h3, h4⟩ := runLog_session path ops (applyLogOp m op).1
    constructor
    · rw [sessionCount, List.countP_append, ← sessionCount, ← sessionCount,
        h1, h3]
      by_cases ha : path ∈ m.sessionStarted
      · have hb := h2 ha
        have hc := h4 hb
        simp [ha, hb, hc]
      · by_cases hb : path ∈ (applyLogOp m op).1.sessionStarted
        · have hc := h4 hb
          simp [ha, hb, hc]
        · simp [ha, hb]
    · intro hs
      exact h4 (h2 hs)

/-! ## Claim C8: at most one session-start line per path and process -/

/-- C8: within one process lifetime the logger never writes a second
session-start line to a path's log file: the count of session-start
lines written to the path is at most one, it is exactly one precisely
when a session was recorded for the path (which happens at the first
successful Enable), and any further Enable — also after an intervening
Disable — appends no session-start line. -/
theorem claim8_session_start_once (ops : List LogOp) (path : String) :
    sessionCount path (runLog NewLogManager ops).2 ≤ 1 ∧
    sessionCount path (runLog NewLogManager ops).2 =
      (if path ∈ (runLog NewLogManager ops).1.sessionStarted then 1 else 0) ∧
    (∀ ok, path ∈ (runLog NewLogManager ops).1.sessionStarted →
      ((runLog NewLogManager ops).1.EnableStep path ok).2 = []) := by
  have h := (runLog_session path ops NewLogManager).1
  have h2 : (if path ∈ NewLogManager.sessionStarted then 1 else 0) = 0 := by
    simp [NewLogManager]
  rw [h2, Nat.sub_zero] at h
  refine ⟨?_, h, ?_⟩
  · rw [h]
    split <;> simp
  · intro ok hs
    rw [LogManager.EnableStep, if_pos hs]

theorem claim8_witness :
    sessionCount "/l" (runLog NewLogManager
      [.enable "/l" true, .disable "/l", .enable "/l" true]).2 ≤ 1 ∧
    sessionCount "/l" (runLog NewLogManager
      [.enable "/l" true, .disable "/l", .enable "/l" true]).2 =
      (if "/l" ∈ (runLog NewLogManager
        [.enable "/l" true, .disable "/l", .enable "/l" true]).1.sessionStarted
       then 1 else 0) ∧
    ((runLog NewLogManager
      [.enable "/l" true, .disable "/l", .enable "/l" true]).1.EnableStep
        "/l" false).2 = [] :=
  ⟨(claim8_session_start_once
      [.enable "/l" true, .disable "/l", .enable "/l" true] "/l").1,
   (claim8_session_start_once
      [.enable "/l" true, .disable "/l", .enable "/l" true] "/l").2.1,
   (claim8_session_start_once
      [.enable "/l" true, .disable "/l", .enable "/l" true] "/l").2.2 false
     (by decide)⟩
